import Mathlib

/-!
# Verification of the weighted NDCG core (`src/main.rs`)

Shallow embedding of the three core functions `calculate_dcg`,
`calculate_query_ndcg` and `calculate_ndcg` of the repository.  The Rust
`f32` fields are modelled as real numbers, the in-place slice sorts as
list splicing with Lean's stable `List.mergeSort`, and the `assert!`
macros (which abort the process) as an `Except` error value.
-/

noncomputable section
open Classical

/-- One scored item of the dataset (`struct Instance` in `src/main.rs`).
The `f32` fields are modelled as real numbers. -/
structure Instance where
  query_id : Int
  weight : ℝ
  relevancy : ℝ
  score : ℝ

instance : Inhabited Instance := ⟨⟨0, 0, 0, 0⟩⟩

/-- Result pair of a DCG / NDCG computation (`struct WeightedValue`). -/
structure WeightedValue where
  value : ℝ
  weight : ℝ

/-- The fatal `assert!` failures of the core, as an explicit error value:
`emptyRange` is `assert_ne!(start, end)`, `degenerateQuery` is
`assert_ne!(idcg.value, 0.0)`, `nonMonotonic` is
`assert!(next_qid >= curr_qid)`. -/
inductive NdcgError where
  | emptyRange
  | degenerateQuery
  | nonMonotonic
deriving DecidableEq

/-- The accumulator loop of `calculate_dcg`: position counter `i` starts
at `2.0`, each instance adds `(2^relevancy - 1) / log2 i` to the DCG
accumulator and its weight to the weight accumulator. -/
def dcg_loop : List Instance → ℝ → ℝ → ℝ → ℝ × ℝ
  | [], _, dcg_acc, weight_acc => (dcg_acc, weight_acc)
  | inst :: rest, i, dcg_acc, weight_acc =>
      dcg_loop rest (i + 1)
        (dcg_acc + ((2 : ℝ) ^ inst.relevancy - 1) / Real.logb 2 i)
        (weight_acc + inst.weight)

/-- `calculate_dcg` of `src/main.rs`: discounted cumulative gain and
total weight of a sequence of instances, in the given order. -/
def calculate_dcg (instances : List Instance) : WeightedValue :=
  ⟨(dcg_loop instances 2 0 0).1, (dcg_loop instances 2 0 0).2⟩

/-- The first sort of `calculate_query_ndcg`:
`sort_by(|a, b| b.relevancy.total_cmp(&a.relevancy))`, a stable sort by
relevancy descending. -/
def sort_by_relevancy_desc (l : List Instance) : List Instance :=
  l.mergeSort fun a b => decide (b.relevancy ≤ a.relevancy)

/-- The second sort of `calculate_query_ndcg`:
`sort_by(|a, b| b.score.total_cmp(&a.score))`, a stable sort by score
descending. -/
def sort_by_score_desc (l : List Instance) : List Instance :=
  l.mergeSort fun a b => decide (b.score ≤ a.score)

/-- The body of `calculate_query_ndcg` acting on the extracted slice
(one query group): sort by relevancy descending, compute the ideal DCG,
abort if its value is zero, re-sort by score descending, compute the
DCG, and return the weighted value together with the final (score
sorted) state of the slice. -/
def query_ndcg_group (group : List Instance) :
    Except NdcgError (List Instance × WeightedValue) :=
  if group = [] then .error .emptyRange
  else
    let byRel := sort_by_relevancy_desc group
    let idcg := calculate_dcg byRel
    if idcg.value = 0 then .error .degenerateQuery
    else
      let byScore := sort_by_score_desc byRel
      let dcg := calculate_dcg byScore
      .ok (byScore, ⟨dcg.weight * dcg.value / idcg.value, dcg.weight⟩)

/-- `calculate_query_ndcg` of `src/main.rs`: acts on the slice
`instances[s..e]` of the full vector; the in-place mutation is modelled
by returning the updated vector (slice replaced by its sorted form)
next to the `WeightedValue`. -/
def calculate_query_ndcg (instances : List Instance) (s e : Nat) :
    Except NdcgError (List Instance × WeightedValue) :=
  match query_ndcg_group ((instances.drop s).take (e - s)) with
  | .error err => .error err
  | .ok (sorted, wv) => .ok (instances.take s ++ sorted ++ instances.drop e, wv)

/-- The `while i < num_instances` loop of `calculate_ndcg`, with its
mutable state (`instances`, `i`, `size`, `curr_qid`, `ndcg_acc`,
`weight_acc`) threaded explicitly; `n` is the (constant)
`num_instances`. -/
def ndcg_loop (instances : List Instance) (n i size : Nat) (curr_qid : Int)
    (ndcg_acc weight_acc : ℝ) : Except NdcgError (List Instance × ℝ × ℝ) :=
  if h : i < n then
    let next_i := i + 1
    let start := next_i - size
    if next_i = n then
      match calculate_query_ndcg instances start next_i with
      | .error err => .error err
      | .ok (inst, wv) =>
          ndcg_loop inst n next_i size curr_qid (ndcg_acc + wv.value)
            (weight_acc + wv.weight)
    else
      let next_qid := (instances.getD next_i default).query_id
      if next_qid < curr_qid then .error .nonMonotonic
      else if next_qid ≠ curr_qid then
        match calculate_query_ndcg instances start next_i with
        | .error err => .error err
        | .ok (inst, wv) =>
            ndcg_loop inst n next_i 1 next_qid (ndcg_acc + wv.value)
              (weight_acc + wv.weight)
      else
        ndcg_loop instances n next_i (size + 1) curr_qid ndcg_acc weight_acc
  else
    .ok (instances, ndcg_acc, weight_acc)
termination_by n - i
decreasing_by all_goals omega

/-- `calculate_ndcg` of `src/main.rs`: returns `0.0` on the empty
sequence, otherwise runs the grouping loop from `i = 0`, `size = 1`,
`curr_qid = instances[0].query_id` and divides the accumulated value by
the accumulated weight.  The final state of the (in-place mutated)
vector is returned next to the result. -/
def calculate_ndcg (instances : List Instance) :
    Except NdcgError (List Instance × ℝ) :=
  if instances = [] then .ok (instances, 0)
  else
    match ndcg_loop instances instances.length 0 1
        (instances.getD 0 default).query_id 0 0 with
    | .error err => .error err
    | .ok (inst, ndcg_acc, weight_acc) => .ok (inst, ndcg_acc / weight_acc)

/-! ## Specification-side definitions -/

/-- The input precondition of the aggregator: query ids non-decreasing
along the sequence. -/
def QidMonotone (l : List Instance) : Prop :=
  List.Chain' (fun a b => a.query_id ≤ b.query_id) l

/-- Prepend one instance to a list of query groups: join it with the
first group when the query id matches, else start a new group. -/
def addToGroups (x : Instance) : List (List Instance) → List (List Instance)
  | [] => [[x]]
  | g :: gs =>
    if (g.headD default).query_id = x.query_id then (x :: g) :: gs
    else [x] :: g :: gs

/-- The maximal contiguous runs of equal `query_id` (query groups). -/
def queryGroups : List Instance → List (List Instance)
  | [] => []
  | x :: t => addToGroups x (queryGroups t)

/-- The query id of a group (of its first element). -/
def groupQid (g : List Instance) : Int :=
  (g.headD default).query_id

/-- Sum of the `weight` fields of a list of instances. -/
def weightSum (l : List Instance) : ℝ :=
  (l.map Instance.weight).sum

/-- Positional DCG sum starting at position `k` (position `k` uses the
discount `log2 (k + 2)`). -/
def dcgSum : List Instance → ℕ → ℝ
  | [], _ => 0
  | x :: t, k => ((2 : ℝ) ^ x.relevancy - 1) / Real.logb 2 ((k : ℝ) + 2) + dcgSum t (k + 1)

/-- `rsum c [a₀, a₁, ...] k = a₀ * c k + a₁ * c (k+1) + ...`: abstract
positionally discounted sum, used to state the rearrangement
inequality. -/
def rsum (c : ℕ → ℝ) : List ℝ → ℕ → ℝ
  | [], _ => 0
  | a :: t, k => a * c k + rsum c t (k + 1)

/-- The gain of one instance: `2^relevancy - 1`. -/
def gain (x : Instance) : ℝ := (2 : ℝ) ^ x.relevancy - 1

/-- The reciprocal discount at position `k`: `1 / log2 (k + 2)`. -/
def discountInv (k : ℕ) : ℝ := (Real.logb 2 ((k : ℝ) + 2))⁻¹

/-- The net effect of `calculate_query_ndcg` on a query group's slice:
sorted by relevancy descending, then (stably) re-sorted by score
descending. -/
def groupTransform (g : List Instance) : List Instance :=
  sort_by_score_desc (sort_by_relevancy_desc g)

/-- The `value` component returned by `calculate_query_ndcg` for a
query group. -/
def queryValue (g : List Instance) : ℝ :=
  weightSum g * dcgSum (groupTransform g) 0 / dcgSum (sort_by_relevancy_desc g) 0

/-- The `weight` component returned by `calculate_query_ndcg` for a
query group. -/
def queryWeight (g : List Instance) : ℝ :=
  weightSum g

/-- Specification-side recursion: process the query groups left to
right the way the aggregation loop does, accumulating value and weight
and stopping at the first failing group. -/
def processGroups : List Instance → List (List Instance) → ℝ → ℝ →
    Except NdcgError (List Instance × ℝ × ℝ)
  | pre, [], nacc, wacc => .ok (pre, nacc, wacc)
  | pre, g :: rest, nacc, wacc =>
    match query_ndcg_group g with
    | .error e => .error e
    | .ok (g', wv) => processGroups (pre ++ g') rest (nacc + wv.value) (wacc + wv.weight)

/-! ## Basic facts about the discount and the gain -/

lemma logb2_pos (k : ℕ) : 0 < Real.logb 2 ((k : ℝ) + 2) := by
  apply Real.logb_pos (by norm_num)
  have : (0 : ℝ) ≤ (k : ℝ) := Nat.cast_nonneg k
  linarith

lemma one_le_logb2 (k : ℕ) : 1 ≤ Real.logb 2 ((k : ℝ) + 2) := by
  have h2 : Real.logb 2 (2 : ℝ) = 1 := Real.logb_self_eq_one (by norm_num)
  calc (1 : ℝ) = Real.logb 2 2 := h2.symm
    _ ≤ Real.logb 2 ((k : ℝ) + 2) := by
        apply Real.logb_le_logb_of_le (by norm_num) (by norm_num)
        have : (0 : ℝ) ≤ (k : ℝ) := Nat.cast_nonneg k
        linarith

lemma gain_nonneg {r : ℝ} (hr : 0 ≤ r) : 0 ≤ (2 : ℝ) ^ r - 1 := by
  have : (1 : ℝ) ≤ (2 : ℝ) ^ r := Real.one_le_rpow (by norm_num) hr
  linarith

lemma gain_pos {r : ℝ} (hr : 0 < r) : 0 < (2 : ℝ) ^ r - 1 := by
  have : (1 : ℝ) < (2 : ℝ) ^ r := Real.one_lt_rpow (by norm_num) hr
  linarith

/-! ## Characterization of `calculate_dcg` -/

lemma dcg_loop_eq (l : List Instance) :
    ∀ (k : ℕ) (a w : ℝ), dcg_loop l ((k : ℝ) + 2) a w = (a + dcgSum l k, w + weightSum l) := by
  induction l with
  | nil => intro k a w; simp [dcg_loop, dcgSum, weightSum]
  | cons x t ih =>
      intro k a w
      have hcast : ((k : ℝ) + 2) + 1 = (((k + 1 : ℕ) : ℝ) + 2) := by push_cast; ring
      calc dcg_loop (x :: t) ((k : ℝ) + 2) a w
          = dcg_loop t (((k + 1 : ℕ) : ℝ) + 2)
              (a + ((2 : ℝ) ^ x.relevancy - 1) / Real.logb 2 ((k : ℝ) + 2))
              (w + x.weight) := by rw [dcg_loop, hcast]
        _ = (a + dcgSum (x :: t) k, w + weightSum (x :: t)) := by
            rw [ih (k + 1)]
            refine Prod.ext ?_ ?_ <;> simp [dcgSum, weightSum] <;> ring

lemma calculate_dcg_eq (l : List Instance) :
    calculate_dcg l = ⟨dcgSum l 0, weightSum l⟩ := by
  have h0 : (2 : ℝ) = ((0 : ℕ) : ℝ) + 2 := by norm_num
  rw [calculate_dcg, h0, dcg_loop_eq l 0 0 0]
  simp

lemma dcgSum_nonneg {l : List Instance} (h : ∀ x ∈ l, 0 ≤ x.relevancy) (k : ℕ) :
    0 ≤ dcgSum l k := by
  induction l generalizing k with
  | nil => simp [dcgSum]
  | cons x t ih =>
      have hx := h x (List.mem_cons_self x t)
      have ht : ∀ y ∈ t, 0 ≤ y.relevancy := fun y hy => h y (List.mem_cons_of_mem x hy)
      have hterm : 0 ≤ ((2 : ℝ) ^ x.relevancy - 1) / Real.logb 2 ((k : ℝ) + 2) :=
        div_nonneg (gain_nonneg hx) (logb2_pos k).le
      have := ih ht (k + 1)
      simp only [dcgSum]
      linarith

lemma dcgSum_pos {l : List Instance} (hnn : ∀ x ∈ l, 0 ≤ x.relevancy)
    {x : Instance} (hx : x ∈ l) (hpos : 0 < x.relevancy) (k : ℕ) :
    0 < dcgSum l k := by
  induction l generalizing k with
  | nil => cases hx
  | cons y t ih =>
      have hy := hnn y (List.mem_cons_self y t)
      have ht : ∀ z ∈ t, 0 ≤ z.relevancy := fun z hz => hnn z (List.mem_cons_of_mem y hz)
      rcases List.mem_cons.mp hx with rfl | hxt
      · have hterm : 0 < ((2 : ℝ) ^ x.relevancy - 1) / Real.logb 2 ((k : ℝ) + 2) :=
          div_pos (gain_pos hpos) (logb2_pos k)
        have htail := dcgSum_nonneg ht (k + 1)
        simp only [dcgSum]
        linarith
      · have hterm : 0 ≤ ((2 : ℝ) ^ y.relevancy - 1) / Real.logb 2 ((k : ℝ) + 2) :=
          div_nonneg (gain_nonneg hy) (logb2_pos k).le
        have htail := ih ht hxt (k + 1)
        simp only [dcgSum]
        linarith

lemma dcgSum_eq_zero_of_all_zero {l : List Instance}
    (h : ∀ x ∈ l, x.relevancy = 0) (k : ℕ) : dcgSum l k = 0 := by
  induction l generalizing k with
  | nil => simp [dcgSum]
  | cons x t ih =>
      have hx := h x (List.mem_cons_self x t)
      have ht : ∀ y ∈ t, y.relevancy = 0 := fun y hy => h y (List.mem_cons_of_mem x hy)
      simp [dcgSum, hx, Real.rpow_zero, ih ht]

lemma dcgSum_eq_zero_iff {l : List Instance} (hnn : ∀ x ∈ l, 0 ≤ x.relevancy) (k : ℕ) :
    dcgSum l k = 0 ↔ ∀ x ∈ l, x.relevancy = 0 := by
  constructor
  · intro h0 x hx
    by_contra hne
    have hpos : 0 < x.relevancy := lt_of_le_of_ne (hnn x hx) (Ne.symm hne)
    exact absurd h0 (ne_of_gt (dcgSum_pos hnn hx hpos k))
  · intro h; exact dcgSum_eq_zero_of_all_zero h k

lemma dcgSum_eq_finsum (l : List Instance) :
    ∀ k : ℕ, dcgSum l k = ∑ i ∈ Finset.range l.length,
      ((2 : ℝ) ^ ((l.getD i default).relevancy) - 1) / Real.logb 2 ((i : ℝ) + (k : ℝ) + 2) := by
  induction l with
  | nil => intro k; simp [dcgSum]
  | cons x t ih =>
      intro k
      rw [List.length_cons, Finset.sum_range_succ']
      simp only [dcgSum, List.getD_cons_succ, List.getD_cons_zero, Nat.cast_zero, zero_add]
      rw [ih (k + 1)]
      have hsum : (∑ i ∈ Finset.range t.length, ((2 : ℝ) ^ ((t.getD i default).relevancy) - 1) /
              Real.logb 2 ((i : ℝ) + ((k + 1 : ℕ) : ℝ) + 2))
          = ∑ i ∈ Finset.range t.length, ((2 : ℝ) ^ ((t.getD i default).relevancy) - 1) /
              Real.logb 2 (((i + 1 : ℕ) : ℝ) + (k : ℝ) + 2) := by
        refine Finset.sum_congr rfl fun i _ => ?_
        have harg : ((i : ℝ) + ((k + 1 : ℕ) : ℝ) + 2) = (((i + 1 : ℕ) : ℝ) + (k : ℝ) + 2) := by
          push_cast; ring
        rw [harg]
      rw [hsum]
      ring

/-! ## Sorting lemmas -/

lemma sort_by_relevancy_desc_perm (l : List Instance) :
    (sort_by_relevancy_desc l).Perm l :=
  List.mergeSort_perm l _

lemma sort_by_score_desc_perm (l : List Instance) :
    (sort_by_score_desc l).Perm l :=
  List.mergeSort_perm l _

lemma sort_by_relevancy_desc_sorted (l : List Instance) :
    (sort_by_relevancy_desc l).Pairwise (fun a b => b.relevancy ≤ a.relevancy) := by
  have h := @List.sorted_mergeSort Instance
    (fun a b : Instance => decide (b.relevancy ≤ a.relevancy))
    (fun a b c hab hbc => by
      simp only [decide_eq_true_eq] at *
      exact le_trans hbc hab)
    (fun a b => by
      simp only [Bool.or_eq_true, decide_eq_true_eq]
      exact le_total b.relevancy a.relevancy)
    l
  exact h.imp (fun hd => by simpa using hd)

lemma weightSum_perm {l l' : List Instance} (h : l.Perm l') :
    weightSum l = weightSum l' :=
  (h.map Instance.weight).sum_eq

lemma sort_by_score_desc_perm_orig (l : List Instance) :
    (sort_by_score_desc (sort_by_relevancy_desc l)).Perm l :=
  (sort_by_score_desc_perm _).trans (sort_by_relevancy_desc_perm l)

lemma weightSum_pos {l : List Instance} (hne : l ≠ [])
    (hw : ∀ x ∈ l, 0 < x.weight) : 0 < weightSum l := by
  induction l with
  | nil => exact absurd rfl hne
  | cons x t ih =>
      have hx := hw x (List.mem_cons_self x t)
      have ht : ∀ y ∈ t, 0 < y.weight := fun y hy => hw y (List.mem_cons_of_mem x hy)
      rcases t with _ | ⟨y, t'⟩
      · simpa [weightSum] using hx
      · have := ih (by simp) ht
        simp only [weightSum, List.map_cons, List.sum_cons] at *
        linarith

/-! ## The rearrangement inequality for positionally discounted sums

The ideal (relevancy-descending) order maximizes the DCG among all
permutations of a query group.  We prove this abstractly for sums
`Σ aᵢ * c (k + i)` with an antitone coefficient function `c`. -/

lemma rsum_front_le {c : ℕ → ℝ} (hc : ∀ k, c (k + 1) ≤ c k) {a : ℝ} :
    ∀ (u v : List ℝ), (∀ x ∈ u, x ≤ a) → ∀ k,
      rsum c (u ++ a :: v) k ≤ rsum c (a :: (u ++ v)) k := by
  intro u
  induction u with
  | nil => intro v _ k; simp [rsum]
  | cons b u' ih =>
      intro v hmax k
      have hb : b ≤ a := hmax b (List.mem_cons_self b u')
      have hu' : ∀ x ∈ u', x ≤ a := fun x hx => hmax x (List.mem_cons_of_mem b hx)
      have h1 : rsum c (u' ++ a :: v) (k + 1) ≤ rsum c (a :: (u' ++ v)) (k + 1) :=
        ih v hu' (k + 1)
      have hswap : b * c k + a * c (k + 1) ≤ a * c k + b * c (k + 1) := by
        nlinarith [mul_nonneg (sub_nonneg.mpr hb) (sub_nonneg.mpr (hc k))]
      calc rsum c ((b :: u') ++ a :: v) k
          = b * c k + rsum c (u' ++ a :: v) (k + 1) := rfl
        _ ≤ b * c k + (a * c (k + 1) + rsum c (u' ++ v) (k + 2)) := by
            simpa [rsum] using add_le_add_left h1 (b * c k)
        _ ≤ a * c k + (b * c (k + 1) + rsum c (u' ++ v) (k + 2)) := by linarith
        _ = rsum c (a :: ((b :: u') ++ v)) k := by simp [rsum]

lemma rsum_perm_le_sorted {c : ℕ → ℝ} (hc : ∀ k, c (k + 1) ≤ c k) :
    ∀ (l l' : List ℝ), l.Pairwise (fun a b => b ≤ a) → l'.Perm l → ∀ k,
      rsum c l' k ≤ rsum c l k := by
  intro l
  induction l with
  | nil =>
      intro l' _ hperm k
      rw [List.perm_nil.mp hperm]
  | cons a t ih =>
      intro l' hsorted hperm k
      have ha : ∀ x ∈ t, x ≤ a := fun x hx => (List.pairwise_cons.mp hsorted).1 x hx
      have ht : t.Pairwise (fun a b => b ≤ a) := (List.pairwise_cons.mp hsorted).2
      have hmem : a ∈ l' := hperm.mem_iff.mpr (List.mem_cons_self a t)
      obtain ⟨u, v, rfl⟩ := List.append_of_mem hmem
      have huv : (u ++ v).Perm t :=
        ((List.perm_middle).symm.trans hperm).cons_inv
      have hmax : ∀ x ∈ u, x ≤ a := by
        intro x hx
        have hx' : x ∈ a :: t := hperm.mem_iff.mp (by simp [hx])
        rcases List.mem_cons.mp hx' with rfl | hxt
        · exact le_refl x
        · exact ha x hxt
      calc rsum c (u ++ a :: v) k
          ≤ rsum c (a :: (u ++ v)) k := rsum_front_le hc u v hmax k
        _ = a * c k + rsum c (u ++ v) (k + 1) := rfl
        _ ≤ a * c k + rsum c t (k + 1) := by
            have := ih (u ++ v) ht huv (k + 1)
            linarith
        _ = rsum c (a :: t) k := rfl

lemma discountInv_antitone (k : ℕ) : discountInv (k + 1) ≤ discountInv k := by
  apply inv_anti₀ (logb2_pos k)
  apply Real.logb_le_logb_of_le (by norm_num)
  · have : (0 : ℝ) ≤ (k : ℝ) := Nat.cast_nonneg k
    linarith
  · push_cast; linarith

lemma dcgSum_eq_rsum (l : List Instance) : ∀ k, dcgSum l k = rsum discountInv (l.map gain) k := by
  induction l with
  | nil => intro k; simp [dcgSum, rsum]
  | cons x t ih =>
      intro k
      simp only [dcgSum, List.map_cons, rsum, gain, discountInv, div_eq_mul_inv, ih (k + 1)]

lemma gain_mono {x y : Instance} (h : y.relevancy ≤ x.relevancy) : gain y ≤ gain x := by
  have : (2 : ℝ) ^ y.relevancy ≤ (2 : ℝ) ^ x.relevancy :=
    (Real.rpow_le_rpow_left_iff (by norm_num)).mpr h
  simp only [gain]
  linarith

/-- Core inequality: the DCG of any permutation of a relevancy-descending
sorted list is at most the DCG of the sorted list itself. -/
lemma dcgSum_perm_le {L L' : List Instance}
    (hsorted : L.Pairwise (fun a b => b.relevancy ≤ a.relevancy))
    (hperm : L'.Perm L) (k : ℕ) : dcgSum L' k ≤ dcgSum L k := by
  rw [dcgSum_eq_rsum, dcgSum_eq_rsum]
  apply rsum_perm_le_sorted discountInv_antitone
  · exact (List.pairwise_map).mpr (hsorted.imp fun h => gain_mono h)
  · exact hperm.map gain

lemma dcg_le_idcg (g : List Instance) :
    dcgSum (sort_by_score_desc (sort_by_relevancy_desc g)) 0 ≤
      dcgSum (sort_by_relevancy_desc g) 0 :=
  dcgSum_perm_le (sort_by_relevancy_desc_sorted g) (sort_by_score_desc_perm _) 0

/-! ## Characterization of `query_ndcg_group` -/

lemma mem_sort_rel {g : List Instance} {x : Instance} :
    x ∈ sort_by_relevancy_desc g ↔ x ∈ g :=
  (sort_by_relevancy_desc_perm g).mem_iff

lemma idcg_value (g : List Instance) :
    (calculate_dcg (sort_by_relevancy_desc g)).value = dcgSum (sort_by_relevancy_desc g) 0 := by
  rw [calculate_dcg_eq]

lemma idcg_value_pos {g : List Instance} (hnn : ∀ x ∈ g, 0 ≤ x.relevancy)
    {x : Instance} (hx : x ∈ g) (hpos : 0 < x.relevancy) :
    0 < dcgSum (sort_by_relevancy_desc g) 0 :=
  dcgSum_pos (fun y hy => hnn y (mem_sort_rel.mp hy)) (mem_sort_rel.mpr hx) hpos 0

/-- Success characterization of the per-query computation. -/
lemma query_ndcg_group_eq {g : List Instance} (hne : g ≠ [])
    (hnn : ∀ x ∈ g, 0 ≤ x.relevancy) (hpos : ∃ x ∈ g, 0 < x.relevancy) :
    query_ndcg_group g = .ok (sort_by_score_desc (sort_by_relevancy_desc g),
      ⟨weightSum g * dcgSum (sort_by_score_desc (sort_by_relevancy_desc g)) 0 /
        dcgSum (sort_by_relevancy_desc g) 0, weightSum g⟩) := by
  obtain ⟨x, hx, hxpos⟩ := hpos
  have hI : 0 < dcgSum (sort_by_relevancy_desc g) 0 := idcg_value_pos hnn hx hxpos
  rw [query_ndcg_group]
  rw [if_neg hne]
  simp only [calculate_dcg_eq]
  rw [if_neg (ne_of_gt hI)]
  have hw1 : weightSum (sort_by_score_desc (sort_by_relevancy_desc g)) = weightSum g :=
    weightSum_perm (sort_by_score_desc_perm_orig g)
  rw [hw1]

/-- Degenerate-query characterization: the per-query computation fails
on a non-empty group exactly when the ideal DCG value is zero. -/
lemma query_ndcg_group_error_iff {g : List Instance} (hne : g ≠ []) :
    (∃ e, query_ndcg_group g = .error e) ↔
      (calculate_dcg (sort_by_relevancy_desc g)).value = 0 := by
  rw [query_ndcg_group, if_neg hne]
  by_cases h0 : (calculate_dcg (sort_by_relevancy_desc g)).value = 0
  · constructor
    · intro _; exact h0
    · intro _; exact ⟨.degenerateQuery, by rw [if_pos h0]⟩
  · constructor
    · rintro ⟨e, he⟩
      rw [if_neg h0] at he
      simp at he
    · intro h; exact absurd h h0

lemma query_ndcg_group_degenerate_iff {g : List Instance} (hne : g ≠ [])
    (hnn : ∀ x ∈ g, 0 ≤ x.relevancy) :
    query_ndcg_group g = .error .degenerateQuery ↔ ∀ x ∈ g, x.relevancy = 0 := by
  have hzero : (calculate_dcg (sort_by_relevancy_desc g)).value = 0 ↔
      ∀ x ∈ g, x.relevancy = 0 := by
    rw [idcg_value, dcgSum_eq_zero_iff (fun y hy => hnn y (mem_sort_rel.mp hy))]
    constructor
    · intro h x hx; exact h x (mem_sort_rel.mpr hx)
    · intro h x hx; exact h x (mem_sort_rel.mp hx)
  rw [query_ndcg_group, if_neg hne]
  by_cases h0 : (calculate_dcg (sort_by_relevancy_desc g)).value = 0
  · simp only [h0, if_pos rfl]
    exact ⟨fun _ => hzero.mp h0, fun _ => rfl⟩
  · simp only [if_neg h0]
    constructor
    · intro h; cases h
    · intro h; exact absurd (hzero.mpr h) h0

/-- C2: `calculate_dcg` sums the weights and the position-discounted
gains `(2^relevancy_i - 1) / log2 (i + 2)`; the first position's
denominator is `log2 2 = 1`, and the empty sequence yields `(0, 0)`. -/
theorem claim_C2_dcg_formula (l : List Instance) :
    (calculate_dcg l).weight = (l.map Instance.weight).sum ∧
    (calculate_dcg l).value = ∑ i ∈ Finset.range l.length,
      ((2 : ℝ) ^ ((l.getD i default).relevancy) - 1) / Real.logb 2 ((i : ℝ) + 2) ∧
    Real.logb 2 ((0 : ℝ) + 2) = 1 ∧
    (calculate_dcg []).value = 0 ∧ (calculate_dcg []).weight = 0 := by
  refine ⟨?_, ?_, ?_, ?_, ?_⟩
  · rw [calculate_dcg_eq]; rfl
  · rw [calculate_dcg_eq]
    have := dcgSum_eq_finsum l 0
    simpa using this
  · norm_num
  · rw [calculate_dcg_eq]; simp [dcgSum]
  · rw [calculate_dcg_eq]; simp [weightSum]

/-! ## Structure of `queryGroups` -/

lemma queryGroups_ne_nil {l : List Instance} (h : l ≠ []) : queryGroups l ≠ [] := by
  cases l with
  | nil => exact absurd rfl h
  | cons x t =>
      rw [queryGroups]
      cases hq : queryGroups t with
      | nil => rw [addToGroups]; simp
      | cons g gs =>
          rw [addToGroups]
          by_cases hif : (g.headD default).query_id = x.query_id
          · rw [if_pos hif]; simp
          · rw [if_neg hif]; simp

lemma queryGroups_flatten (l : List Instance) : (queryGroups l).flatten = l := by
  induction l with
  | nil => rfl
  | cons x t ih =>
      rw [queryGroups]
      cases hq : queryGroups t with
      | nil =>
          have ht : t = [] := by
            by_contra hne
            exact queryGroups_ne_nil hne hq
          subst ht
          rw [addToGroups]; simp
      | cons g gs =>
          rw [hq] at ih
          rw [addToGroups]
          by_cases hif : (g.headD default).query_id = x.query_id
          · rw [if_pos hif]
            simp only [List.flatten_cons] at ih ⊢
            rw [List.cons_append, ih]
          · rw [if_neg hif]
            simp only [List.flatten_cons] at ih ⊢
            rw [List.singleton_append, ih]

lemma queryGroups_forall_ne_nil (l : List Instance) : ∀ g ∈ queryGroups l, g ≠ [] := by
  induction l with
  | nil => intro g hg; cases hg
  | cons x t ih =>
      rw [queryGroups]
      cases hq : queryGroups t with
      | nil =>
          rw [addToGroups]
          intro g hg
          rcases List.mem_cons.mp hg with rfl | h2
          · simp
          · cases h2
      | cons g0 gs =>
          rw [hq] at ih
          rw [addToGroups]
          by_cases hif : (g0.headD default).query_id = x.query_id
          · rw [if_pos hif]
            intro g hg
            rcases List.mem_cons.mp hg with rfl | h2
            · simp
            · exact ih g (List.mem_cons_of_mem g0 h2)
          · rw [if_neg hif]
            intro g hg
            rcases List.mem_cons.mp hg with rfl | h2
            · simp
            · exact ih g h2

lemma queryGroups_const (l : List Instance) :
    ∀ g ∈ queryGroups l, ∀ x ∈ g, x.query_id = groupQid g := by
  induction l with
  | nil => intro g hg; cases hg
  | cons x t ih =>
      rw [queryGroups]
      cases hq : queryGroups t with
      | nil =>
          rw [addToGroups]
          intro g hg
          rcases List.mem_cons.mp hg with rfl | h2
          · intro y hy
            rcases List.mem_cons.mp hy with rfl | h3
            · rfl
            · cases h3
          · cases h2
      | cons g0 gs =>
          rw [hq] at ih
          rw [addToGroups]
          by_cases hif : (g0.headD default).query_id = x.query_id
          · rw [if_pos hif]
            intro g hg
            rcases List.mem_cons.mp hg with rfl | h2
            · intro y hy
              rcases List.mem_cons.mp hy with rfl | h3
              · rfl
              · have := ih g0 (List.mem_cons_self g0 gs) y h3
                rw [this]
                show (g0.headD default).query_id = groupQid (x :: g0)
                rw [hif]
                rfl
            · exact ih g (List.mem_cons_of_mem g0 h2)
          · rw [if_neg hif]
            intro g hg
            rcases List.mem_cons.mp hg with rfl | h2
            · intro y hy
              rcases List.mem_cons.mp hy with rfl | h3
              · rfl
              · cases h3
            · exact ih g h2

lemma queryGroups_head_qid {l : List Instance} (hne : l ≠ []) :
    groupQid ((queryGroups l).headD []) = (l.headD default).query_id := by
  cases l with
  | nil => exact absurd rfl hne
  | cons x t =>
      rw [queryGroups]
      cases hq : queryGroups t with
      | nil => rw [addToGroups]; rfl
      | cons g0 gs =>
          rw [addToGroups]
          by_cases hif : (g0.headD default).query_id = x.query_id
          · rw [if_pos hif]; rfl
          · rw [if_neg hif]; rfl

lemma queryGroups_chain_lt {l : List Instance} (hmono : QidMonotone l) :
    List.Chain' (fun g h => groupQid g < groupQid h) (queryGroups l) := by
  induction l with
  | nil => exact List.chain'_nil
  | cons x t ih =>
      rw [QidMonotone, List.chain'_cons'] at hmono
      obtain ⟨hrel, ht⟩ := hmono
      have iht := ih ht
      rw [queryGroups]
      cases hq : queryGroups t with
      | nil => rw [addToGroups]; exact List.chain'_singleton _
      | cons g0 gs =>
          rw [hq] at iht
          rw [addToGroups]
          have htne : t ≠ [] := by
            intro h0; rw [h0] at hq; cases hq
          have hg0head : groupQid g0 = (t.headD default).query_id := by
            have := queryGroups_head_qid htne
            rw [hq] at this
            exact this
          by_cases hif : (g0.headD default).query_id = x.query_id
          · rw [if_pos hif]
            rw [List.chain'_cons'] at iht ⊢
            refine ⟨?_, iht.2⟩
            intro y hy
            have := iht.1 y hy
            have hq1 : groupQid (x :: g0) = groupQid g0 := by
              show x.query_id = (g0.headD default).query_id
              exact hif.symm
            rw [hq1]
            exact this
          · rw [if_neg hif]
            rw [List.chain'_cons']
            refine ⟨?_, iht⟩
            intro y hy
            simp only [List.head?_cons, Option.mem_def, Option.some.injEq] at hy
            subst hy
            have hle : x.query_id ≤ (t.headD default).query_id := by
              cases t with
              | nil => exact absurd rfl htne
              | cons z t' =>
                  have := hrel z (by simp)
                  simpa using this
            have hneq : groupQid g0 ≠ x.query_id := hif
            have hgx : groupQid [x] = x.query_id := rfl
            rw [← hgx, ← hg0head] at hle
            have hne2 : groupQid [x] ≠ groupQid g0 := by
              rw [hgx]
              exact fun h => hneq h.symm
            exact lt_of_le_of_ne hle hne2

lemma qidMonotone_of_const {g : List Instance} {q : Int}
    (h : ∀ x ∈ g, x.query_id = q) : QidMonotone g := by
  induction g with
  | nil => exact List.chain'_nil
  | cons a t ih =>
      rw [QidMonotone, List.chain'_cons']
      refine ⟨?_, ih fun x hx => h x (List.mem_cons_of_mem a hx)⟩
      intro y hy
      have hy' : y ∈ t := List.mem_of_mem_head? hy
      rw [h a (List.mem_cons_self a t), h y (List.mem_cons_of_mem a hy')]

lemma qidMonotone_flatten (Gs : List (List Instance))
    (hne : ∀ g ∈ Gs, g ≠ [])
    (hconst : ∀ g ∈ Gs, ∀ x ∈ g, x.query_id = groupQid g)
    (hchain : List.Chain' (fun g h => groupQid g < groupQid h) Gs) :
    QidMonotone Gs.flatten := by
  induction Gs with
  | nil => exact List.chain'_nil
  | cons g Gs' ih =>
      rw [List.flatten_cons, QidMonotone, List.chain'_append]
      refine ⟨?_, ?_, ?_⟩
      · exact qidMonotone_of_const (hconst g (List.mem_cons_self g Gs'))
      · exact ih (fun h hh => hne h (List.mem_cons_of_mem g hh))
          (fun h hh => hconst h (List.mem_cons_of_mem g hh))
          (List.chain'_cons'.mp hchain).2
      · intro a ha b hb
        have hgne : g ≠ [] := hne g (List.mem_cons_self g Gs')
        have ha' : g.getLast hgne = a := by
          rw [List.getLast?_eq_getLast g hgne] at ha
          simpa using ha
        have haq : a.query_id = groupQid g := by
          rw [← ha']
          exact hconst g (List.mem_cons_self g Gs') _ (List.getLast_mem hgne)
        cases Gs' with
        | nil => simp at hb
        | cons h' rest =>
            have hh'ne : h' ≠ [] := hne h' (by simp)
            obtain ⟨z, h'', hh'⟩ := List.exists_cons_of_ne_nil hh'ne
            have hbz : z = b := by
              rw [List.flatten_cons, hh'] at hb
              simpa using hb
            have hbq : b.query_id = groupQid h' := by
              rw [← hbz]
              exact hconst h' (by simp) z (by rw [hh']; simp)
            have hlt : groupQid g < groupQid h' :=
              (List.chain'_cons.mp hchain).1
            rw [haq, hbq]
            exact hlt.le

/-! ## The aggregation loop -/

lemma ndcg_loop_unfold (L : List Instance) (n i s : Nat) (q : Int) (a w : ℝ)
    (h : i < n) :
    ndcg_loop L n i s q a w =
      if i + 1 = n then
        match calculate_query_ndcg L (i + 1 - s) (i + 1) with
        | .error e => .error e
        | .ok (inst, wv) => ndcg_loop inst n (i + 1) s q (a + wv.value) (w + wv.weight)
      else
        if (L.getD (i + 1) default).query_id < q then .error .nonMonotonic
        else if (L.getD (i + 1) default).query_id ≠ q then
          match calculate_query_ndcg L (i + 1 - s) (i + 1) with
          | .error e => .error e
          | .ok (inst, wv) => ndcg_loop inst n (i + 1) 1
              ((L.getD (i + 1) default).query_id) (a + wv.value) (w + wv.weight)
        else ndcg_loop L n (i + 1) (s + 1) q a w := by
  rw [ndcg_loop]
  simp only [dif_pos h]

lemma ndcg_loop_done (L : List Instance) (n i s : Nat) (q : Int) (a w : ℝ)
    (h : ¬ i < n) :
    ndcg_loop L n i s q a w = .ok (L, a, w) := by
  rw [ndcg_loop]
  simp only [dif_neg h]

lemma query_ndcg_group_ok_perm {g g' : List Instance} {wv : WeightedValue}
    (h : query_ndcg_group g = .ok (g', wv)) : g'.Perm g := by
  rw [query_ndcg_group] at h
  by_cases hne : g = []
  · rw [if_pos hne] at h; cases h
  · rw [if_neg hne] at h
    by_cases h0 : (calculate_dcg (sort_by_relevancy_desc g)).value = 0
    · rw [if_pos h0] at h; cases h
    · rw [if_neg h0] at h
      have h2 := Except.ok.inj h
      have h3 : sort_by_score_desc (sort_by_relevancy_desc g) = g' :=
        congrArg Prod.fst h2
      rw [← h3]
      exact sort_by_score_desc_perm_orig g

lemma query_ndcg_group_ok_length {g g' : List Instance} {wv : WeightedValue}
    (h : query_ndcg_group g = .ok (g', wv)) : g'.length = g.length :=
  (query_ndcg_group_ok_perm h).length_eq

/-- `calculate_query_ndcg` on the slice `[pre.length, pre.length + g.length)`
of `pre ++ g ++ rest` extracts exactly `g` and splices the sorted group
back in place. -/
lemma calculate_query_ndcg_slice (pre g rest : List Instance) :
    calculate_query_ndcg (pre ++ (g ++ rest)) pre.length (pre.length + g.length) =
      match query_ndcg_group g with
      | .error e => .error e
      | .ok (g', wv) => .ok (pre ++ (g' ++ rest), wv) := by
  have hslice : (((pre ++ (g ++ rest)).drop pre.length).take
      ((pre.length + g.length) - pre.length)) = g := by
    rw [List.drop_left, Nat.add_sub_cancel_left, List.take_left]
  have htake : (pre ++ (g ++ rest)).take pre.length = pre := List.take_left pre _
  have hdrop : (pre ++ (g ++ rest)).drop (pre.length + g.length) = rest := by
    rw [← List.drop_drop, List.drop_left, List.drop_left]
  cases hq : query_ndcg_group g with
  | error e => rw [calculate_query_ndcg, hslice, hq]
  | ok p =>
      obtain ⟨g', wv⟩ := p
      rw [calculate_query_ndcg, hslice, hq]
      simp only [htake, hdrop, List.append_assoc]

/-- Walking through the interior of one query group: from the group's
first element to its last, the loop only increments `i` and `size`. -/
lemma ndcg_loop_walk (pre g rest : List Instance) (q : Int)
    (hconst : ∀ x ∈ g, x.query_id = q) (nacc wacc : ℝ) :
    ∀ d j, j < g.length → g.length - 1 - j = d →
      ndcg_loop (pre ++ (g ++ rest)) (pre ++ (g ++ rest)).length
        (pre.length + j) (j + 1) q nacc wacc
      = ndcg_loop (pre ++ (g ++ rest)) (pre ++ (g ++ rest)).length
          (pre.length + (g.length - 1)) g.length q nacc wacc := by
  intro d
  induction d with
  | zero =>
      intro j hj hd
      have hj' : j = g.length - 1 := by omega
      subst hj'
      have h1 : g.length - 1 + 1 = g.length := by omega
      rw [h1]
  | succ d ih =>
      intro j hj hd
      have hj1 : j + 1 < g.length := by omega
      have hlen : (pre ++ (g ++ rest)).length =
          pre.length + (g.length + rest.length) := by
        simp
      have hi : pre.length + j < (pre ++ (g ++ rest)).length := by omega
      rw [ndcg_loop_unfold _ _ _ _ _ _ _ hi]
      have hne : ¬ (pre.length + j + 1 = (pre ++ (g ++ rest)).length) := by omega
      rw [if_neg hne]
      have hget : (pre ++ (g ++ rest)).getD (pre.length + j + 1) default =
          g.getD (j + 1) default := by
        rw [List.getD_append_right pre (g ++ rest) default _ (by omega)]
        have h2 : pre.length + j + 1 - pre.length = j + 1 := by omega
        rw [h2, List.getD_append g rest default (j + 1) hj1]
      have hmem : g.getD (j + 1) default ∈ g := by
        rw [List.getD_eq_getElem g default hj1]
        exact List.getElem_mem hj1
      have hqid : ((pre ++ (g ++ rest)).getD (pre.length + j + 1) default).query_id = q := by
        rw [hget]; exact hconst _ hmem
      rw [hqid]
      rw [if_neg (lt_irrefl q)]
      rw [if_neg (by simp)]
      have h3 : pre.length + j + 1 = pre.length + (j + 1) := by omega
      rw [h3]
      exact ih (j + 1) hj1 (by omega)

/-- Processing the final query group (the `next_i == num_instances`
branch), failing case. -/
lemma ndcg_loop_last_err (pre g : List Instance) (q : Int) {e : NdcgError}
    (hg : g ≠ []) (herr : query_ndcg_group g = .error e) (nacc wacc : ℝ) :
    ndcg_loop (pre ++ (g ++ [])) (pre ++ (g ++ [])).length
      (pre.length + (g.length - 1)) g.length q nacc wacc = .error e := by
  have hm : 0 < g.length := List.length_pos.mpr hg
  have hlen : (pre ++ (g ++ [])).length = pre.length + g.length := by simp
  have hi : pre.length + (g.length - 1) < (pre ++ (g ++ [])).length := by omega
  rw [ndcg_loop_unfold _ _ _ _ _ _ _ hi]
  have heq : pre.length + (g.length - 1) + 1 = (pre ++ (g ++ [])).length := by omega
  rw [if_pos heq]
  have h1 : pre.length + (g.length - 1) + 1 - g.length = pre.length := by omega
  have h2 : pre.length + (g.length - 1) + 1 = pre.length + g.length := by omega
  rw [h1, h2, calculate_query_ndcg_slice pre g [], herr]

/-- Processing the final query group, successful case. -/
lemma ndcg_loop_last_ok (pre g g' : List Instance) (q : Int) {wv : WeightedValue}
    (hg : g ≠ []) (hok : query_ndcg_group g = .ok (g', wv)) (nacc wacc : ℝ) :
    ndcg_loop (pre ++ (g ++ [])) (pre ++ (g ++ [])).length
      (pre.length + (g.length - 1)) g.length q nacc wacc =
      .ok (pre ++ (g' ++ []), nacc + wv.value, wacc + wv.weight) := by
  have hm : 0 < g.length := List.length_pos.mpr hg
  have hlen : (pre ++ (g ++ [])).length = pre.length + g.length := by simp
  have hi : pre.length + (g.length - 1) < (pre ++ (g ++ [])).length := by omega
  rw [ndcg_loop_unfold _ _ _ _ _ _ _ hi]
  have heq : pre.length + (g.length - 1) + 1 = (pre ++ (g ++ [])).length := by omega
  rw [if_pos heq]
  have h1 : pre.length + (g.length - 1) + 1 - g.length = pre.length := by omega
  have h2 : pre.length + (g.length - 1) + 1 = pre.length + g.length := by omega
  rw [h1, h2, calculate_query_ndcg_slice pre g [], hok]
  apply ndcg_loop_done
  have hlen' : g'.length = g.length := query_ndcg_group_ok_length hok
  omega

/-- A boundary where the next element's query id is strictly smaller:
the `assert!(next_qid >= curr_qid)` fires before the group is
processed. -/
lemma ndcg_loop_boundary_viol (pre g : List Instance) (x : Instance)
    (rest' : List Instance) (q : Int) (hg : g ≠ [])
    (hlt : x.query_id < q) (nacc wacc : ℝ) :
    ndcg_loop (pre ++ (g ++ (x :: rest'))) (pre ++ (g ++ (x :: rest'))).length
      (pre.length + (g.length - 1)) g.length q nacc wacc = .error .nonMonotonic := by
  have hm : 0 < g.length := List.length_pos.mpr hg
  have hlen : (pre ++ (g ++ (x :: rest'))).length =
      pre.length + (g.length + (rest'.length + 1)) := by simp
  have hi : pre.length + (g.length - 1) < (pre ++ (g ++ (x :: rest'))).length := by omega
  rw [ndcg_loop_unfold _ _ _ _ _ _ _ hi]
  have hne : ¬ (pre.length + (g.length - 1) + 1 = (pre ++ (g ++ (x :: rest'))).length) := by
    omega
  rw [if_neg hne]
  have hget : (pre ++ (g ++ (x :: rest'))).getD (pre.length + (g.length - 1) + 1) default
      = x := by
    rw [List.getD_append_right pre (g ++ (x :: rest')) default _ (by omega)]
    rw [List.getD_append_right g (x :: rest') default _ (by omega)]
    have h2 : pre.length + (g.length - 1) + 1 - pre.length - g.length = 0 := by omega
    rw [h2]
    rfl
  rw [hget, if_pos hlt]

/-- A boundary where the next element starts a strictly larger query:
the current group is processed; failing case. -/
lemma ndcg_loop_boundary_err (pre g : List Instance) (x : Instance)
    (rest' : List Instance) (q : Int) {e : NdcgError} (hg : g ≠ [])
    (hgt : q < x.query_id) (herr : query_ndcg_group g = .error e) (nacc wacc : ℝ) :
    ndcg_loop (pre ++ (g ++ (x :: rest'))) (pre ++ (g ++ (x :: rest'))).length
      (pre.length + (g.length - 1)) g.length q nacc wacc = .error e := by
  have hm : 0 < g.length := List.length_pos.mpr hg
  have hlen : (pre ++ (g ++ (x :: rest'))).length =
      pre.length + (g.length + (rest'.length + 1)) := by simp
  have hi : pre.length + (g.length - 1) < (pre ++ (g ++ (x :: rest'))).length := by omega
  rw [ndcg_loop_unfold _ _ _ _ _ _ _ hi]
  have hne : ¬ (pre.length + (g.length - 1) + 1 = (pre ++ (g ++ (x :: rest'))).length) := by
    omega
  rw [if_neg hne]
  have hget : (pre ++ (g ++ (x :: rest'))).getD (pre.length + (g.length - 1) + 1) default
      = x := by
    rw [List.getD_append_right pre (g ++ (x :: rest')) default _ (by omega)]
    rw [List.getD_append_right g (x :: rest') default _ (by omega)]
    have h2 : pre.length + (g.length - 1) + 1 - pre.length - g.length = 0 := by omega
    rw [h2]
    rfl
  rw [hget, if_neg (by omega), if_pos (by omega)]
  have h1 : pre.length + (g.length - 1) + 1 - g.length = pre.length := by omega
  have h2 : pre.length + (g.length - 1) + 1 = pre.length + g.length := by omega
  rw [h1, h2]
  have hx : (pre ++ (g ++ (x :: rest'))) = (pre ++ (g ++ ((x :: rest') ++ []))) := by simp
  rw [calculate_query_ndcg_slice pre g (x :: rest'), herr]

/-- A boundary where the next element starts a strictly larger query:
the current group is processed; successful case.  The loop continues at
the next group's first element with `size = 1`. -/
lemma ndcg_loop_boundary_ok (pre g g' : List Instance) (x : Instance)
    (rest' : List Instance) (q : Int) {wv : WeightedValue} (hg : g ≠ [])
    (hgt : q < x.query_id) (hok : query_ndcg_group g = .ok (g', wv)) (nacc wacc : ℝ) :
    ndcg_loop (pre ++ (g ++ (x :: rest'))) (pre ++ (g ++ (x :: rest'))).length
      (pre.length + (g.length - 1)) g.length q nacc wacc =
    ndcg_loop (pre ++ (g' ++ (x :: rest'))) (pre ++ (g ++ (x :: rest'))).length
      (pre.length + g.length) 1 x.query_id (nacc + wv.value) (wacc + wv.weight) := by
  have hm : 0 < g.length := List.length_pos.mpr hg
  have hlen : (pre ++ (g ++ (x :: rest'))).length =
      pre.length + (g.length + (rest'.length + 1)) := by simp
  have hi : pre.length + (g.length - 1) < (pre ++ (g ++ (x :: rest'))).length := by omega
  rw [ndcg_loop_unfold _ _ _ _ _ _ _ hi]
  have hne : ¬ (pre.length + (g.length - 1) + 1 = (pre ++ (g ++ (x :: rest'))).length) := by
    omega
  rw [if_neg hne]
  have hget : (pre ++ (g ++ (x :: rest'))).getD (pre.length + (g.length - 1) + 1) default
      = x := by
    rw [List.getD_append_right pre (g ++ (x :: rest')) default _ (by omega)]
    rw [List.getD_append_right g (x :: rest') default _ (by omega)]
    have h2 : pre.length + (g.length - 1) + 1 - pre.length - g.length = 0 := by omega
    rw [h2]
    rfl
  rw [hget, if_neg (by omega), if_pos (by omega)]
  have h1 : pre.length + (g.length - 1) + 1 - g.length = pre.length := by omega
  have h2 : pre.length + (g.length - 1) + 1 = pre.length + g.length := by omega
  rw [h1, h2]
  rw [calculate_query_ndcg_slice pre g (x :: rest'), hok]

/-- The aggregation loop started at the first element of a well-formed
sequence of query groups behaves like the group-by-group recursion
`processGroups`. -/
lemma ndcg_loop_groups (Gs : List (List Instance)) :
    ∀ (pre : List Instance) (nacc wacc : ℝ),
      Gs ≠ [] →
      (∀ g ∈ Gs, g ≠ []) →
      (∀ g ∈ Gs, ∀ x ∈ g, x.query_id = groupQid g) →
      List.Chain' (fun g h => groupQid g < groupQid h) Gs →
      ndcg_loop (pre ++ Gs.flatten) (pre ++ Gs.flatten).length pre.length 1
        (groupQid (Gs.headD [])) nacc wacc
      = processGroups pre Gs nacc wacc := by
  induction Gs with
  | nil => intro pre nacc wacc hGs _ _ _; exact absurd rfl hGs
  | cons g Gs' ih =>
      intro pre nacc wacc _ hne hconst hchain
      have hgne : g ≠ [] := hne g (List.mem_cons_self g Gs')
      have hm : 0 < g.length := List.length_pos.mpr hgne
      have hconstg : ∀ x ∈ g, x.query_id = groupQid g :=
        hconst g (List.mem_cons_self g Gs')
      have hhead : (g :: Gs').headD [] = g := rfl
      rw [hhead, List.flatten_cons]
      have hwalk := ndcg_loop_walk pre g Gs'.flatten (groupQid g) hconstg nacc wacc
        (g.length - 1) 0 hm (by omega)
      simp only [Nat.add_zero, Nat.zero_add] at hwalk
      rw [hwalk]
      cases Gs' with
      | nil =>
          simp only [List.flatten_nil]
          simp only [processGroups]
          cases hq : query_ndcg_group g with
          | error e =>
              rw [ndcg_loop_last_err pre g _ hgne hq]
          | ok p =>
              obtain ⟨g', wv⟩ := p
              rw [ndcg_loop_last_ok pre g g' _ hgne hq]
              simp [processGroups]
      | cons h' rest'' =>
          have hh'ne : h' ≠ [] := hne h' (by simp)
          obtain ⟨z, h'', hh'⟩ := List.exists_cons_of_ne_nil hh'ne
          subst hh'
          have hzq : z.query_id = groupQid (z :: h'') :=
            hconst (z :: h'') (by simp) z (by simp)
          have hlt : groupQid g < groupQid (z :: h'') :=
            (List.chain'_cons.mp hchain).1
          have hgtz : groupQid g < z.query_id := by rw [hzq]; exact hlt
          simp only [List.flatten_cons, List.cons_append]
          simp only [processGroups]
          cases hq : query_ndcg_group g with
          | error e =>
              exact ndcg_loop_boundary_err pre g z (h'' ++ rest''.flatten)
                (groupQid g) hgne hgtz hq nacc wacc
          | ok p =>
              obtain ⟨g', wv⟩ := p
              rw [ndcg_loop_boundary_ok pre g g' z (h'' ++ rest''.flatten)
                (groupQid g) hgne hgtz hq nacc wacc]
              have hlen' : g'.length = g.length := query_ndcg_group_ok_length hq
              have hL : pre ++ (g' ++ (z :: (h'' ++ rest''.flatten))) =
                  (pre ++ g') ++ ((z :: h'') :: rest'').flatten := by
                simp
              have hN : (pre ++ (g ++ (z :: (h'' ++ rest''.flatten)))).length =
                  ((pre ++ g') ++ ((z :: h'') :: rest'').flatten).length := by
                simp
                omega
              have hidx : pre.length + g.length = (pre ++ g').length := by
                simp
                omega
              have hq2 : z.query_id = groupQid ((((z :: h'') :: rest'')).headD []) := hzq
              rw [hL, hN, hidx, hq2]
              exact ih (pre ++ g') (nacc + wv.value) (wacc + wv.weight)
                (by simp)
                (fun h hh => hne h (List.mem_cons_of_mem g hh))
                (fun h hh => hconst h (List.mem_cons_of_mem g hh))
                (List.chain'_cons'.mp hchain).2

lemma queryGroups_chain_ne (l : List Instance) :
    List.Chain' (fun g h => groupQid g ≠ groupQid h) (queryGroups l) := by
  induction l with
  | nil => exact List.chain'_nil
  | cons x t ih =>
      rw [queryGroups]
      cases hq : queryGroups t with
      | nil => rw [addToGroups]; exact List.chain'_singleton _
      | cons g0 gs =>
          rw [hq] at ih
          rw [addToGroups]
          by_cases hif : (g0.headD default).query_id = x.query_id
          · rw [if_pos hif]
            rw [List.chain'_cons'] at ih ⊢
            refine ⟨?_, ih.2⟩
            intro y hy
            have hq1 : groupQid (x :: g0) = groupQid g0 := by
              show x.query_id = (g0.headD default).query_id
              exact hif.symm
            rw [hq1]
            exact ih.1 y hy
          · rw [if_neg hif]
            rw [List.chain'_cons']
            refine ⟨?_, ih⟩
            intro y hy
            simp only [List.head?_cons, Option.mem_def, Option.some.injEq] at hy
            subst hy
            show groupQid [x] ≠ groupQid g0
            have hgx : groupQid [x] = x.query_id := rfl
            rw [hgx]
            exact fun h => hif h.symm

/-- In a list without `Chain' R` there is a first adjacent failing
pair: a prefix on which the chain condition holds, ending at a pair for
which `R` fails. -/
lemma chain'_first_failure {α : Type} (R : α → α → Prop) :
    ∀ L : List α, ¬ List.Chain' R L →
      ∃ A u v B, L = A ++ u :: v :: B ∧ List.Chain' R (A ++ [u]) ∧ ¬ R u v := by
  intro L
  induction L with
  | nil => intro h; exact absurd List.chain'_nil h
  | cons a t ih =>
      intro h
      cases t with
      | nil => exact absurd (List.chain'_singleton a) h
      | cons b t' =>
          by_cases hab : R a b
          · have hnc : ¬ List.Chain' R (b :: t') := fun hc =>
              h (List.chain'_cons.mpr ⟨hab, hc⟩)
            obtain ⟨A, u, v, B, heq, hchain, hng⟩ := ih hnc
            refine ⟨a :: A, u, v, B, by rw [List.cons_append, heq], ?_, hng⟩
            rw [List.cons_append, List.chain'_cons']
            refine ⟨?_, hchain⟩
            intro y hy
            cases A with
            | nil =>
                simp only [List.nil_append] at heq hy
                simp only [List.head?_cons, Option.mem_def, Option.some.injEq] at hy
                subst hy
                injection heq with h1 _
                rw [← h1]
                exact hab
            | cons c A' =>
                simp only [List.cons_append] at heq hy
                simp only [List.head?_cons, Option.mem_def, Option.some.injEq] at hy
                subst hy
                injection heq with h1 _
                rw [← h1]
                exact hab
          · exact ⟨[], a, b, t', rfl, List.chain'_singleton a, hab⟩

/-- The per-query computation never produces the `nonMonotonic` error:
its own asserts are the empty-range and degenerate-query ones. -/
lemma query_ndcg_group_error_cases {g : List Instance} {e : NdcgError}
    (h : query_ndcg_group g = .error e) :
    e = .emptyRange ∨ e = .degenerateQuery := by
  rw [query_ndcg_group] at h
  by_cases hne : g = []
  · rw [if_pos hne] at h
    exact Or.inl (Except.error.inj h).symm
  · rw [if_neg hne] at h
    by_cases h0 : (calculate_dcg (sort_by_relevancy_desc g)).value = 0
    · rw [if_pos h0] at h
      exact Or.inr (Except.error.inj h).symm
    · rw [if_neg h0] at h
      simp at h

lemma processGroups_ne_nonMonotonic (Gs : List (List Instance)) :
    ∀ (pre : List Instance) (nacc wacc : ℝ),
      processGroups pre Gs nacc wacc ≠ .error .nonMonotonic := by
  induction Gs with
  | nil =>
      intro pre nacc wacc hcontra
      rw [processGroups] at hcontra
      cases hcontra
  | cons g Gs' ih =>
      intro pre nacc wacc hcontra
      cases hq : query_ndcg_group g with
      | error e =>
          have hval : processGroups pre (g :: Gs') nacc wacc = .error e := by
            simp only [processGroups]
            rw [hq]
          rw [hval] at hcontra
          have he : e = .nonMonotonic := Except.error.inj hcontra
          rcases query_ndcg_group_error_cases hq with h1 | h1 <;>
            (rw [h1] at he; cases he)
      | ok p =>
          obtain ⟨g', wv⟩ := p
          have hval : processGroups pre (g :: Gs') nacc wacc =
              processGroups (pre ++ g') Gs' (nacc + wv.value) (wacc + wv.weight) := by
            simp only [processGroups]
            rw [hq]
          rw [hval] at hcontra
          exact ih _ _ _ hcontra

/-- Identify the query id of the first element of a flattened group
sequence `A' ++ [u]`. -/
lemma flatten_head_qid (A' : List (List Instance)) (u tail : List Instance)
    (hne : ∀ g ∈ A', g ≠ [])
    (hconst : ∀ g ∈ A', ∀ y ∈ g, y.query_id = groupQid g)
    (hune : u ≠ []) (hconstu : ∀ y ∈ u, y.query_id = groupQid u)
    {z : Instance} {M : List Instance}
    (hM : A'.flatten ++ (u ++ tail) = z :: M) :
    z.query_id = groupQid ((A' ++ [u]).headD []) := by
  cases A' with
  | nil =>
      simp only [List.flatten_nil, List.nil_append] at hM
      obtain ⟨z2, u'', hu⟩ := List.exists_cons_of_ne_nil hune
      subst hu
      simp only [List.cons_append] at hM
      injection hM with h1 _
      subst h1
      simp only [List.nil_append, List.headD_cons]
      exact hconstu _ (by simp)
  | cons h2 A'' =>
      have hh2ne : h2 ≠ [] := hne h2 (by simp)
      obtain ⟨z2, h'', hh⟩ := List.exists_cons_of_ne_nil hh2ne
      subst hh
      simp only [List.flatten_cons, List.cons_append] at hM
      injection hM with h1 _
      subst h1
      simp only [List.cons_append, List.headD_cons]
      exact hconst _ (by simp) _ (by simp)

/-- Running the loop over successfully processed groups `A` followed by
a group `u` whose successor element has a strictly smaller query id
ends in the `nonMonotonic` error. -/
lemma ndcg_loop_groups_viol (A : List (List Instance)) :
    ∀ (pre u : List Instance) (x : Instance) (rest' : List Instance) (nacc wacc : ℝ),
      (∀ g ∈ A, g ≠ []) →
      (∀ g ∈ A, ∀ y ∈ g, y.query_id = groupQid g) →
      (∀ g ∈ A, ∃ p, query_ndcg_group g = .ok p) →
      List.Chain' (fun g h => groupQid g < groupQid h) (A ++ [u]) →
      u ≠ [] → (∀ y ∈ u, y.query_id = groupQid u) →
      x.query_id < groupQid u →
      ndcg_loop (pre ++ (A.flatten ++ (u ++ (x :: rest'))))
        (pre ++ (A.flatten ++ (u ++ (x :: rest')))).length pre.length 1
        (groupQid ((A ++ [u]).headD [])) nacc wacc = .error .nonMonotonic := by
  induction A with
  | nil =>
      intro pre u x rest' nacc wacc _ _ _ _ hune hconstu hxlt
      simp only [List.flatten_nil, List.nil_append, List.headD_cons]
      have hm : 0 < u.length := List.length_pos.mpr hune
      have hwalk := ndcg_loop_walk pre u (x :: rest') (groupQid u) hconstu nacc wacc
        (u.length - 1) 0 hm (by omega)
      simp only [Nat.add_zero, Nat.zero_add] at hwalk
      rw [hwalk]
      exact ndcg_loop_boundary_viol pre u x rest' (groupQid u) hune hxlt nacc wacc
  | cons g A' ih =>
      intro pre u x rest' nacc wacc hne hconst hok hchain hune hconstu hxlt
      have hgne : g ≠ [] := hne g (by simp)
      have hm : 0 < g.length := List.length_pos.mpr hgne
      have hconstg := hconst g (by simp)
      have hhead : (((g :: A') ++ [u])).headD [] = g := rfl
      rw [hhead]
      simp only [List.flatten_cons, List.append_assoc]
      have hwalk := ndcg_loop_walk pre g (A'.flatten ++ (u ++ (x :: rest')))
        (groupQid g) hconstg nacc wacc (g.length - 1) 0 hm (by omega)
      simp only [Nat.add_zero, Nat.zero_add] at hwalk
      rw [hwalk]
      have hMne : A'.flatten ++ (u ++ (x :: rest')) ≠ [] := by
        simp
      obtain ⟨z, M, hM⟩ := List.exists_cons_of_ne_nil hMne
      obtain ⟨⟨g', wv⟩, hq⟩ := hok g (by simp)
      have hzqid : z.query_id = groupQid ((A' ++ [u]).headD []) :=
        flatten_head_qid A' u (x :: rest')
          (fun h hh => hne h (List.mem_cons_of_mem _ hh))
          (fun h hh => hconst h (List.mem_cons_of_mem _ hh)) hune hconstu hM
      have hgz : groupQid g < z.query_id := by
        rw [hzqid]
        have hchain2 : List.Chain' (fun g h => groupQid g < groupQid h)
            (g :: (A' ++ [u])) := by
          rw [← List.cons_append]
          exact hchain
        have hne2 : A' ++ [u] ≠ [] := by simp
        obtain ⟨G2, R2, hG2⟩ := List.exists_cons_of_ne_nil hne2
        rw [hG2] at hchain2 ⊢
        simp only [List.headD_cons]
        exact (List.chain'_cons.mp hchain2).1
      rw [hM]
      rw [ndcg_loop_boundary_ok pre g g' z M (groupQid g) hgne hgz hq nacc wacc]
      have hlen' : g'.length = g.length := query_ndcg_group_ok_length hq
      have hL : pre ++ (g' ++ (z :: M)) =
          (pre ++ g') ++ (A'.flatten ++ (u ++ (x :: rest'))) := by
        rw [hM]
        simp
      have hN : (pre ++ (g ++ (z :: M))).length =
          ((pre ++ g') ++ (A'.flatten ++ (u ++ (x :: rest')))).length := by
        rw [hM]
        simp
        omega
      have hidx : pre.length + g.length = (pre ++ g').length := by
        simp
        omega
      rw [hL, hN, hidx, hzqid]
      exact ih (pre ++ g') u x rest' (nacc + wv.value) (wacc + wv.weight)
        (fun h hh => hne h (List.mem_cons_of_mem _ hh))
        (fun h hh => hconst h (List.mem_cons_of_mem _ hh))
        (fun h hh => hok h (List.mem_cons_of_mem _ hh))
        (by
          have : List.Chain' (fun g h => groupQid g < groupQid h)
              (g :: (A' ++ [u])) := by
            rw [← List.cons_append]
            exact hchain
          exact (List.chain'_cons'.mp this).2)
        hune hconstu hxlt

/-- `calculate_ndcg` on a non-empty monotone input reduces to the
group-by-group recursion over its query groups. -/
lemma calculate_ndcg_eq_processGroups {l : List Instance} (hne : l ≠ [])
    (hmono : QidMonotone l) :
    calculate_ndcg l =
      match processGroups [] (queryGroups l) 0 0 with
      | .error e => .error e
      | .ok (inst, na, wa) => .ok (inst, na / wa) := by
  have hq0 : groupQid ((queryGroups l).headD []) = (l.getD 0 default).query_id := by
    rw [queryGroups_head_qid hne]
    cases l with
    | nil => exact absurd rfl hne
    | cons x t => rfl
  rw [calculate_ndcg, if_neg hne]
  have hGs := ndcg_loop_groups (queryGroups l) [] 0 0 (queryGroups_ne_nil hne)
    (queryGroups_forall_ne_nil l) (queryGroups_const l) (queryGroups_chain_lt hmono)
  simp only [List.nil_append, List.length_nil, queryGroups_flatten, hq0] at hGs
  rw [hGs]

/-- Groups of a valid input are processed successfully, returning the
transformed (twice sorted) group with `queryValue` and `queryWeight`. -/
lemma query_groups_ok {l : List Instance} (hnn : ∀ x ∈ l, 0 ≤ x.relevancy)
    (hpos : ∀ g ∈ queryGroups l, ∃ x ∈ g, 0 < x.relevancy) :
    ∀ g ∈ queryGroups l,
      query_ndcg_group g = .ok (groupTransform g, ⟨queryValue g, queryWeight g⟩) := by
  intro g hg
  have hgne := queryGroups_forall_ne_nil l g hg
  have hginl : ∀ x ∈ g, x ∈ l := by
    intro x hx
    rw [← queryGroups_flatten l]
    exact List.mem_flatten.mpr ⟨g, hg, hx⟩
  rw [query_ndcg_group_eq hgne (fun x hx => hnn x (hginl x hx)) (hpos g hg)]
  rfl

lemma processGroups_all_ok (Gs : List (List Instance))
    (h : ∀ g ∈ Gs, query_ndcg_group g = .ok (groupTransform g, ⟨queryValue g, queryWeight g⟩)) :
    ∀ (pre : List Instance) (nacc wacc : ℝ), processGroups pre Gs nacc wacc =
      .ok (pre ++ (Gs.map groupTransform).flatten,
        nacc + (Gs.map queryValue).sum, wacc + (Gs.map queryWeight).sum) := by
  induction Gs with
  | nil => intro pre nacc wacc; simp [processGroups]
  | cons g Gs' ih =>
      intro pre nacc wacc
      simp only [processGroups]
      rw [h g (List.mem_cons_self g Gs')]
      show processGroups (pre ++ groupTransform g) Gs'
          (nacc + queryValue g) (wacc + queryWeight g) = _
      rw [ih (fun g2 hg2 => h g2 (List.mem_cons_of_mem _ hg2)) (pre ++ groupTransform g)]
      simp only [List.map_cons, List.flatten_cons, List.sum_cons, ← List.append_assoc,
        ← add_assoc]

/-- Full success characterization of `calculate_ndcg` on valid input. -/
lemma calculate_ndcg_success {l : List Instance} (hne : l ≠ [])
    (hmono : QidMonotone l) (hnn : ∀ x ∈ l, 0 ≤ x.relevancy)
    (hpos : ∀ g ∈ queryGroups l, ∃ x ∈ g, 0 < x.relevancy) :
    calculate_ndcg l = .ok (((queryGroups l).map groupTransform).flatten,
      ((queryGroups l).map queryValue).sum / ((queryGroups l).map queryWeight).sum) := by
  rw [calculate_ndcg_eq_processGroups hne hmono,
    processGroups_all_ok (queryGroups l) (query_groups_ok hnn hpos) [] 0 0]
  simp

lemma flatten_map_transform_length (Gs : List (List Instance)) :
    ((Gs.map groupTransform).flatten).length = Gs.flatten.length := by
  induction Gs with
  | nil => rfl
  | cons g Gs' ih =>
      simp only [List.map_cons, List.flatten_cons, List.length_append, ih, groupTransform,
        (sort_by_score_desc_perm_orig g).length_eq]

lemma sum_queryWeight_eq (Gs : List (List Instance)) :
    (Gs.map queryWeight).sum = weightSum Gs.flatten := by
  induction Gs with
  | nil => simp [weightSum]
  | cons g Gs' ih =>
      simp only [List.map_cons, List.sum_cons, List.flatten_cons, ih]
      simp [queryWeight, weightSum]

/-- C1: on valid non-empty monotone input, `calculate_ndcg` succeeds and
returns exactly the sum of the per-group returned values divided by the
sum of the per-group returned weights. -/
theorem claim_C1_weighted_average (l : List Instance) (hne : l ≠ [])
    (hmono : QidMonotone l) (hnn : ∀ x ∈ l, 0 ≤ x.relevancy)
    (hpos : ∀ g ∈ queryGroups l, ∃ x ∈ g, 0 < x.relevancy) :
    (∀ g ∈ queryGroups l,
      query_ndcg_group g = .ok (groupTransform g, ⟨queryValue g, queryWeight g⟩)) ∧
    calculate_ndcg l = .ok (((queryGroups l).map groupTransform).flatten,
      ((queryGroups l).map queryValue).sum / ((queryGroups l).map queryWeight).sum) :=
  ⟨query_groups_ok hnn hpos, calculate_ndcg_success hne hmono hnn hpos⟩

theorem claim_C1_witness :
    (∀ g ∈ queryGroups [(⟨0, 1, 1, 0⟩ : Instance)],
      query_ndcg_group g = .ok (groupTransform g, ⟨queryValue g, queryWeight g⟩)) ∧
    calculate_ndcg [(⟨0, 1, 1, 0⟩ : Instance)] =
      .ok (((queryGroups [(⟨0, 1, 1, 0⟩ : Instance)]).map groupTransform).flatten,
        ((queryGroups [(⟨0, 1, 1, 0⟩ : Instance)]).map queryValue).sum /
        ((queryGroups [(⟨0, 1, 1, 0⟩ : Instance)]).map queryWeight).sum) :=
  claim_C1_weighted_average [⟨0, 1, 1, 0⟩] (by simp)
    (List.chain'_singleton _)
    (by intro x hx; rcases List.mem_cons.mp hx with rfl | h2
        · norm_num
        · cases h2)
    (by intro g hg
        rcases List.mem_cons.mp hg with rfl | h2
        · exact ⟨⟨0, 1, 1, 0⟩, List.mem_cons_self _ _, by norm_num⟩
        · cases h2)

/-- C6: the empty input returns `0.0` without failing. -/
theorem claim_C6_empty : calculate_ndcg [] = .ok ([], 0) := by
  rw [calculate_ndcg, if_pos rfl]

/-- C9: on valid input, `calculate_ndcg` mutates its input only by
reordering within query groups: it succeeds, the final state of the
sequence is the concatenation of the transformed groups, each
transformed group is a permutation of the original group, the total
length is unchanged, and the group decomposition covers the input. -/
theorem claim_C9_frame (l : List Instance) (hne : l ≠ [])
    (hmono : QidMonotone l) (hnn : ∀ x ∈ l, 0 ≤ x.relevancy)
    (hpos : ∀ g ∈ queryGroups l, ∃ x ∈ g, 0 < x.relevancy) :
    ∃ v : ℝ, calculate_ndcg l = .ok (((queryGroups l).map groupTransform).flatten, v) ∧
    (∀ g ∈ queryGroups l, (groupTransform g).Perm g) ∧
    ((queryGroups l).map groupTransform).flatten.length = l.length ∧
    (queryGroups l).flatten = l := by
  refine ⟨_, calculate_ndcg_success hne hmono hnn hpos, ?_, ?_, queryGroups_flatten l⟩
  · intro g _
    exact sort_by_score_desc_perm_orig g
  · rw [flatten_map_transform_length, queryGroups_flatten]

theorem claim_C9_witness :
    ∃ v : ℝ, calculate_ndcg [(⟨0, 1, 1, 0⟩ : Instance)] =
      .ok (((queryGroups [(⟨0, 1, 1, 0⟩ : Instance)]).map groupTransform).flatten, v) ∧
    (∀ g ∈ queryGroups [(⟨0, 1, 1, 0⟩ : Instance)], (groupTransform g).Perm g) ∧
    ((queryGroups [(⟨0, 1, 1, 0⟩ : Instance)]).map groupTransform).flatten.length =
      [(⟨0, 1, 1, 0⟩ : Instance)].length ∧
    (queryGroups [(⟨0, 1, 1, 0⟩ : Instance)]).flatten = [(⟨0, 1, 1, 0⟩ : Instance)] :=
  claim_C9_frame [⟨0, 1, 1, 0⟩] (by simp)
    (List.chain'_singleton _)
    (by intro x hx; rcases List.mem_cons.mp hx with rfl | h2
        · norm_num
        · cases h2)
    (by intro g hg
        rcases List.mem_cons.mp hg with rfl | h2
        · exact ⟨⟨0, 1, 1, 0⟩, List.mem_cons_self _ _, by norm_num⟩
        · cases h2)

/-- C10: on valid non-empty input with strictly positive weights, the
accumulated weight is strictly positive, so the final division is a
well-defined quotient (never `0/0`). -/
theorem claim_C10_weight_positive (l : List Instance) (hne : l ≠ [])
    (hmono : QidMonotone l) (hnn : ∀ x ∈ l, 0 ≤ x.relevancy)
    (hpos : ∀ g ∈ queryGroups l, ∃ x ∈ g, 0 < x.relevancy)
    (hw : ∀ x ∈ l, 0 < x.weight) :
    calculate_ndcg l = .ok (((queryGroups l).map groupTransform).flatten,
      ((queryGroups l).map queryValue).sum / ((queryGroups l).map queryWeight).sum) ∧
    0 < ((queryGroups l).map queryWeight).sum :=
  ⟨calculate_ndcg_success hne hmono hnn hpos, by
    rw [sum_queryWeight_eq, queryGroups_flatten]
    exact weightSum_pos hne hw⟩

theorem claim_C10_witness :
    calculate_ndcg [(⟨0, 1, 1, 0⟩ : Instance)] =
      .ok (((queryGroups [(⟨0, 1, 1, 0⟩ : Instance)]).map groupTransform).flatten,
        ((queryGroups [(⟨0, 1, 1, 0⟩ : Instance)]).map queryValue).sum /
        ((queryGroups [(⟨0, 1, 1, 0⟩ : Instance)]).map queryWeight).sum) ∧
    0 < ((queryGroups [(⟨0, 1, 1, 0⟩ : Instance)]).map queryWeight).sum :=
  claim_C10_weight_positive [⟨0, 1, 1, 0⟩] (by simp)
    (List.chain'_singleton _)
    (by intro x hx; rcases List.mem_cons.mp hx with rfl | h2
        · norm_num
        · cases h2)
    (by intro g hg
        rcases List.mem_cons.mp hg with rfl | h2
        · exact ⟨⟨0, 1, 1, 0⟩, List.mem_cons_self _ _, by norm_num⟩
        · cases h2)
    (by intro x hx; rcases List.mem_cons.mp hx with rfl | h2
        · norm_num
        · cases h2)

/-- C4: the per-query computation on a non-empty group aborts exactly
when the ideal DCG value is zero; with non-negative relevancies this
happens exactly when every relevancy in the group is zero; and a
non-empty monotone input whose every relevancy is zero makes the whole
`calculate_ndcg` computation fail with the degenerate-query error. -/
theorem claim_C4_degenerate :
    (∀ g : List Instance, g ≠ [] →
      ((∃ e, query_ndcg_group g = .error e) ↔
        (calculate_dcg (sort_by_relevancy_desc g)).value = 0)) ∧
    (∀ g : List Instance, g ≠ [] → (∀ x ∈ g, 0 ≤ x.relevancy) →
      (query_ndcg_group g = .error .degenerateQuery ↔ ∀ x ∈ g, x.relevancy = 0)) ∧
    (∀ l : List Instance, l ≠ [] → QidMonotone l → (∀ x ∈ l, x.relevancy = 0) →
      calculate_ndcg l = .error .degenerateQuery) := by
  refine ⟨fun g hg => query_ndcg_group_error_iff hg,
    fun g hg hnn => query_ndcg_group_degenerate_iff hg hnn, ?_⟩
  intro l hne hmono hzero
  rw [calculate_ndcg_eq_processGroups hne hmono]
  obtain ⟨g, Gs', hGs⟩ := List.exists_cons_of_ne_nil (queryGroups_ne_nil hne)
  have hgmem : g ∈ queryGroups l := by rw [hGs]; simp
  have hgne : g ≠ [] := queryGroups_forall_ne_nil l g hgmem
  have hginl : ∀ x ∈ g, x ∈ l := by
    intro x hx
    rw [← queryGroups_flatten l]
    exact List.mem_flatten.mpr ⟨g, hgmem, hx⟩
  have hgzero : ∀ x ∈ g, x.relevancy = 0 := fun x hx => hzero x (hginl x hx)
  have hgnn : ∀ x ∈ g, 0 ≤ x.relevancy := fun x hx => (hgzero x hx).ge
  have herr : query_ndcg_group g = .error .degenerateQuery :=
    (query_ndcg_group_degenerate_iff hgne hgnn).mpr hgzero
  rw [hGs]
  simp only [processGroups]
  rw [herr]

theorem claim_C4_witness :
    calculate_ndcg [(⟨0, 1, 0, 0⟩ : Instance)] = .error .degenerateQuery :=
  claim_C4_degenerate.2.2 [⟨0, 1, 0, 0⟩] (by simp)
    (List.chain'_singleton _)
    (by intro x hx; rcases List.mem_cons.mp hx with rfl | h2
        · rfl
        · cases h2)

/-- A list containing an element satisfying `P` splits at the first
such element: everything before it fails `P`. -/
lemma exists_first_mem {α : Type} (P : α → Prop) :
    ∀ L : List α, (∃ g ∈ L, P g) →
      ∃ A₁ d A₂, L = A₁ ++ d :: A₂ ∧ P d ∧ ∀ g ∈ A₁, ¬ P g := by
  intro L
  induction L with
  | nil => rintro ⟨g, hg, _⟩; cases hg
  | cons a t ih =>
      rintro ⟨g, hg, hP⟩
      by_cases hPa : P a
      · exact ⟨[], a, t, rfl, hPa, by simp⟩
      · have ht : ∃ g ∈ t, P g := by
          rcases List.mem_cons.mp hg with rfl | hgt
          · exact absurd hP hPa
          · exact ⟨g, hgt, hP⟩
        obtain ⟨A₁, d, A₂, heq, hPd, hA₁⟩ := ih ht
        refine ⟨a :: A₁, d, A₂, by rw [List.cons_append, heq], hPd, ?_⟩
        intro g2 hg2
        rcases List.mem_cons.mp hg2 with rfl | h2
        · exact hPa
        · exact hA₁ g2 h2

/-- A chain over `A ++ (d :: rest)` restricts to the prefix `A ++ [d]`. -/
lemma chain'_append_right_singleton {α : Type} {R : α → α → Prop}
    {A : List α} {d : α} {rest : List α}
    (h : List.Chain' R (A ++ (d :: rest))) : List.Chain' R (A ++ [d]) := by
  rw [List.chain'_append] at h ⊢
  refine ⟨h.1, List.chain'_singleton d, ?_⟩
  intro a ha b hb
  have hb' : d = b := by simpa using hb
  exact hb' ▸ h.2.2 a ha d (by simp)

/-- Running the loop over successfully processed groups `A` followed by
a group `d` whose own processing fails (while the element after `d` has
a strictly larger query id, so the order check passes) propagates `d`'s
error. -/
lemma ndcg_loop_groups_err (A : List (List Instance)) :
    ∀ (pre d : List Instance) (x : Instance) (rest' : List Instance)
      (nacc wacc : ℝ) (e : NdcgError),
      (∀ g ∈ A, g ≠ []) →
      (∀ g ∈ A, ∀ y ∈ g, y.query_id = groupQid g) →
      (∀ g ∈ A, ∃ p, query_ndcg_group g = .ok p) →
      List.Chain' (fun g h => groupQid g < groupQid h) (A ++ [d]) →
      d ≠ [] → (∀ y ∈ d, y.query_id = groupQid d) →
      groupQid d < x.query_id →
      query_ndcg_group d = .error e →
      ndcg_loop (pre ++ (A.flatten ++ (d ++ (x :: rest'))))
        (pre ++ (A.flatten ++ (d ++ (x :: rest')))).length pre.length 1
        (groupQid ((A ++ [d]).headD [])) nacc wacc = .error e := by
  induction A with
  | nil =>
      intro pre d x rest' nacc wacc e _ _ _ _ hdne hconstd hgt herr
      simp only [List.flatten_nil, List.nil_append, List.headD_cons]
      have hm : 0 < d.length := List.length_pos.mpr hdne
      have hwalk := ndcg_loop_walk pre d (x :: rest') (groupQid d) hconstd nacc wacc
        (d.length - 1) 0 hm (by omega)
      simp only [Nat.add_zero, Nat.zero_add] at hwalk
      rw [hwalk]
      exact ndcg_loop_boundary_err pre d x rest' (groupQid d) hdne hgt herr nacc wacc
  | cons g A' ih =>
      intro pre d x rest' nacc wacc e hne hconst hok hchain hdne hconstd hgt herr
      have hgne : g ≠ [] := hne g (by simp)
      have hm : 0 < g.length := List.length_pos.mpr hgne
      have hconstg := hconst g (by simp)
      have hhead : (((g :: A') ++ [d])).headD [] = g := rfl
      rw [hhead]
      simp only [List.flatten_cons, List.append_assoc]
      have hwalk := ndcg_loop_walk pre g (A'.flatten ++ (d ++ (x :: rest')))
        (groupQid g) hconstg nacc wacc (g.length - 1) 0 hm (by omega)
      simp only [Nat.add_zero, Nat.zero_add] at hwalk
      rw [hwalk]
      have hMne : A'.flatten ++ (d ++ (x :: rest')) ≠ [] := by
        simp
      obtain ⟨z, M, hM⟩ := List.exists_cons_of_ne_nil hMne
      obtain ⟨⟨g', wv⟩, hq⟩ := hok g (by simp)
      have hzqid : z.query_id = groupQid ((A' ++ [d]).headD []) :=
        flatten_head_qid A' d (x :: rest')
          (fun h hh => hne h (List.mem_cons_of_mem _ hh))
          (fun h hh => hconst h (List.mem_cons_of_mem _ hh)) hdne hconstd hM
      have hgz : groupQid g < z.query_id := by
        rw [hzqid]
        have hchain2 : List.Chain' (fun g h => groupQid g < groupQid h)
            (g :: (A' ++ [d])) := by
          rw [← List.cons_append]
          exact hchain
        have hne2 : A' ++ [d] ≠ [] := by simp
        obtain ⟨G2, R2, hG2⟩ := List.exists_cons_of_ne_nil hne2
        rw [hG2] at hchain2 ⊢
        simp only [List.headD_cons]
        exact (List.chain'_cons.mp hchain2).1
      rw [hM]
      rw [ndcg_loop_boundary_ok pre g g' z M (groupQid g) hgne hgz hq nacc wacc]
      have hlen' : g'.length = g.length := query_ndcg_group_ok_length hq
      have hL : pre ++ (g' ++ (z :: M)) =
          (pre ++ g') ++ (A'.flatten ++ (d ++ (x :: rest'))) := by
        rw [hM]
        simp
      have hN : (pre ++ (g ++ (z :: M))).length =
          ((pre ++ g') ++ (A'.flatten ++ (d ++ (x :: rest')))).length := by
        rw [hM]
        simp
        omega
      have hidx : pre.length + g.length = (pre ++ g').length := by
        simp
        omega
      rw [hL, hN, hidx, hzqid]
      exact ih (pre ++ g') d x rest' (nacc + wv.value) (wacc + wv.weight) e
        (fun h hh => hne h (List.mem_cons_of_mem _ hh))
        (fun h hh => hconst h (List.mem_cons_of_mem _ hh))
        (fun h hh => hok h (List.mem_cons_of_mem _ hh))
        (by
          have hc2 : List.Chain' (fun g h => groupQid g < groupQid h)
              (g :: (A' ++ [d])) := by
            rw [← List.cons_append]
            exact hchain
          exact (List.chain'_cons'.mp hc2).2)
        hdne hconstd hgt herr

/-- Every input violating the non-decreasing precondition has a first
violation: the query-group sequence splits as `A ++ u :: v :: B` with
the strict chain holding through `A ++ [u]` and failing at `(u, v)`. -/
lemma exists_first_violation {l : List Instance} (hnm : ¬ QidMonotone l) :
    ∃ A u v B, queryGroups l = A ++ u :: v :: B ∧
      List.Chain' (fun g h => groupQid g < groupQid h) (A ++ [u]) ∧
      ¬ groupQid u < groupQid v := by
  have hchain_contra : ¬ List.Chain' (fun g h => groupQid g < groupQid h)
      (queryGroups l) := by
    intro hc
    apply hnm
    have := qidMonotone_flatten (queryGroups l) (queryGroups_forall_ne_nil l)
      (queryGroups_const l) hc
    rwa [queryGroups_flatten] at this
  exact chain'_first_failure _ (queryGroups l) hchain_contra

/-- On input whose first order violation sits at the group boundary
`(u, v)` and whose groups completed before that violation are all
non-degenerate, `calculate_ndcg` fails with the `nonMonotonic` error. -/
lemma calculate_ndcg_nonmonotone {l : List Instance} {A : List (List Instance)}
    {u v : List Instance} {B : List (List Instance)}
    (hnn : ∀ x ∈ l, 0 ≤ x.relevancy)
    (heq : queryGroups l = A ++ u :: v :: B)
    (hchainA : List.Chain' (fun g h => groupQid g < groupQid h) (A ++ [u]))
    (hnR : ¬ groupQid u < groupQid v)
    (hApos : ∀ g ∈ A, ∃ x ∈ g, 0 < x.relevancy) :
    calculate_ndcg l = .error .nonMonotonic := by
  have hne : l ≠ [] := by
    intro h0
    subst h0
    rw [show queryGroups [] = [] from rfl] at heq
    exact absurd heq.symm (by simp)
  have hcne := queryGroups_chain_ne l
  rw [heq] at hcne
  have hsuffix : List.Chain' (fun g h => groupQid g ≠ groupQid h) (u :: v :: B) :=
    (List.chain'_append.mp hcne).2.1
  have huv_ne : groupQid u ≠ groupQid v := (List.chain'_cons.mp hsuffix).1
  have hvu : groupQid v < groupQid u := by
    rcases lt_trichotomy (groupQid u) (groupQid v) with h1 | h1 | h1
    · exact absurd h1 hnR
    · exact absurd h1 huv_ne
    · exact h1
  have humem : u ∈ queryGroups l := by rw [heq]; simp
  have hvmem : v ∈ queryGroups l := by rw [heq]; simp
  obtain ⟨z, v'', hv⟩ :=
    List.exists_cons_of_ne_nil (queryGroups_forall_ne_nil l v hvmem)
  have hzq : z.query_id = groupQid v :=
    queryGroups_const l v hvmem z (by rw [hv]; simp)
  have hzlt : z.query_id < groupQid u := by rw [hzq]; exact hvu
  have hl : l = A.flatten ++ (u ++ (z :: (v'' ++ B.flatten))) := by
    conv_lhs => rw [← queryGroups_flatten l, heq]
    rw [hv]
    simp
  have hAmem : ∀ g ∈ A, g ∈ queryGroups l := by
    intro g hg
    rw [heq]
    exact List.mem_append_left _ hg
  have hAok : ∀ g ∈ A, ∃ p, query_ndcg_group g = .ok p := by
    intro g hg
    have hgm := hAmem g hg
    have hgne := queryGroups_forall_ne_nil l g hgm
    have hgnn : ∀ x ∈ g, 0 ≤ x.relevancy := by
      intro x hx
      apply hnn
      rw [← queryGroups_flatten l]
      exact List.mem_flatten.mpr ⟨g, hgm, hx⟩
    exact ⟨_, query_ndcg_group_eq hgne hgnn (hApos g hg)⟩
  have hune : u ≠ [] := queryGroups_forall_ne_nil l u humem
  have hconstu : ∀ y ∈ u, y.query_id = groupQid u := queryGroups_const l u humem
  have hmain := ndcg_loop_groups_viol A [] u z (v'' ++ B.flatten) 0 0
    (fun g hg => queryGroups_forall_ne_nil l g (hAmem g hg))
    (fun g hg => queryGroups_const l g (hAmem g hg))
    hAok hchainA hune hconstu hzlt
  rw [calculate_ndcg, if_neg hne]
  have hq0 : (l.getD 0 default).query_id = groupQid ((A ++ [u]).headD []) := by
    have h1 : groupQid ((queryGroups l).headD []) = (l.getD 0 default).query_id := by
      rw [queryGroups_head_qid hne]
      cases l with
      | nil => exact absurd rfl hne
      | cons x t => rfl
    rw [← h1, heq]
    cases A with
    | nil => rfl
    | cons a A' => rfl
  simp only [List.nil_append, List.length_nil] at hmain
  rw [← hl] at hmain
  rw [hq0, hmain]

/-- If among the query groups completed before the first violation some
group has all-zero relevancy, `calculate_ndcg` aborts with the
degenerate-query error (at the first such group, before reaching the
violation). -/
lemma calculate_ndcg_first_degenerate {l : List Instance} {A : List (List Instance)}
    {u v : List Instance} {B : List (List Instance)}
    (hnn : ∀ x ∈ l, 0 ≤ x.relevancy)
    (heq : queryGroups l = A ++ u :: v :: B)
    (hchainA : List.Chain' (fun g h => groupQid g < groupQid h) (A ++ [u]))
    (hdeg : ∃ g ∈ A, ∀ x ∈ g, x.relevancy = 0) :
    calculate_ndcg l = .error .degenerateQuery := by
  have hne : l ≠ [] := by
    intro h0
    subst h0
    rw [show queryGroups [] = [] from rfl] at heq
    exact absurd heq.symm (by simp)
  have hmem_all : ∀ g ∈ queryGroups l, ∀ x ∈ g, x ∈ l := by
    intro g hg x hx
    rw [← queryGroups_flatten l]
    exact List.mem_flatten.mpr ⟨g, hg, hx⟩
  obtain ⟨A₁, d, A₂, hA, hPd, hA₁⟩ :=
    exists_first_mem (fun g => ∀ x ∈ g, x.relevancy = 0) A hdeg
  subst hA
  have heq' : queryGroups l = A₁ ++ (d :: (A₂ ++ u :: v :: B)) := by
    rw [heq]
    simp
  have hmemQ : ∀ g, g ∈ A₁ ++ (d :: (A₂ ++ u :: v :: B)) → g ∈ queryGroups l := by
    intro g hg
    rw [heq']
    exact hg
  have hdmem : d ∈ queryGroups l := hmemQ d (by simp)
  have hdne : d ≠ [] := queryGroups_forall_ne_nil l d hdmem
  have hdconst : ∀ y ∈ d, y.query_id = groupQid d := queryGroups_const l d hdmem
  have hdnn : ∀ x ∈ d, 0 ≤ x.relevancy := fun x hx => hnn x (hmem_all d hdmem x hx)
  have herr : query_ndcg_group d = .error .degenerateQuery :=
    (query_ndcg_group_degenerate_iff hdne hdnn).mpr hPd
  have hA₁mem : ∀ g ∈ A₁, g ∈ queryGroups l := fun g hg =>
    hmemQ g (List.mem_append_left _ hg)
  have hA₁ok : ∀ g ∈ A₁, ∃ p, query_ndcg_group g = .ok p := by
    intro g hg
    have hgm := hA₁mem g hg
    have hgne := queryGroups_forall_ne_nil l g hgm
    have hgnn : ∀ x ∈ g, 0 ≤ x.relevancy := fun x hx => hnn x (hmem_all g hgm x hx)
    have hgpos : ∃ x ∈ g, 0 < x.relevancy := by
      have hnot := hA₁ g hg
      push_neg at hnot
      obtain ⟨x, hx, hxne⟩ := hnot
      exact ⟨x, hx, lt_of_le_of_ne (hgnn x hx) (Ne.symm hxne)⟩
    exact ⟨_, query_ndcg_group_eq hgne hgnn hgpos⟩
  have hchain_full : List.Chain' (fun g h => groupQid g < groupQid h)
      (A₁ ++ (d :: (A₂ ++ [u]))) := by
    have hshape : (A₁ ++ d :: A₂) ++ [u] = A₁ ++ (d :: (A₂ ++ [u])) := by
      simp
    rwa [hshape] at hchainA
  have hchain1 : List.Chain' (fun g h => groupQid g < groupQid h) (A₁ ++ [d]) :=
    chain'_append_right_singleton hchain_full
  have humem : u ∈ queryGroups l := hmemQ u (by simp)
  have hune : u ≠ [] := queryGroups_forall_ne_nil l u humem
  have huconst : ∀ y ∈ u, y.query_id = groupQid u := queryGroups_const l u humem
  have hMne : A₂.flatten ++ (u ++ (v :: B).flatten) ≠ [] := by
    simp [hune]
  obtain ⟨z, M, hM⟩ := List.exists_cons_of_ne_nil hMne
  have hA₂mem : ∀ g ∈ A₂, g ∈ queryGroups l := fun g hg => hmemQ g (by simp [hg])
  have hzqid : z.query_id = groupQid ((A₂ ++ [u]).headD []) :=
    flatten_head_qid A₂ u ((v :: B).flatten)
      (fun g hg => queryGroups_forall_ne_nil l g (hA₂mem g hg))
      (fun g hg => queryGroups_const l g (hA₂mem g hg)) hune huconst hM
  have hdz : groupQid d < z.query_id := by
    rw [hzqid]
    have hright : List.Chain' (fun g h => groupQid g < groupQid h)
        (d :: (A₂ ++ [u])) := (List.chain'_append.mp hchain_full).2.1
    have hne2 : A₂ ++ [u] ≠ [] := by simp
    obtain ⟨G2, R2, hG2⟩ := List.exists_cons_of_ne_nil hne2
    rw [hG2] at hright ⊢
    simp only [List.headD_cons]
    exact (List.chain'_cons.mp hright).1
  have hl : l = A₁.flatten ++ (d ++ (z :: M)) := by
    rw [← hM]
    conv_lhs => rw [← queryGroups_flatten l, heq']
    simp
  have hmain := ndcg_loop_groups_err A₁ [] d z M 0 0 .degenerateQuery
    (fun g hg => queryGroups_forall_ne_nil l g (hA₁mem g hg))
    (fun g hg => queryGroups_const l g (hA₁mem g hg))
    hA₁ok hchain1 hdne hdconst hdz herr
  rw [calculate_ndcg, if_neg hne]
  have hq0 : (l.getD 0 default).query_id = groupQid ((A₁ ++ [d]).headD []) := by
    have h1 : groupQid ((queryGroups l).headD []) = (l.getD 0 default).query_id := by
      rw [queryGroups_head_qid hne]
      cases l with
      | nil => exact absurd rfl hne
      | cons x t => rfl
    rw [← h1, heq']
    cases A₁ with
    | nil => rfl
    | cons a A' => rfl
  simp only [List.nil_append, List.length_nil] at hmain
  rw [← hl] at hmain
  rw [hq0, hmain]

/-- On monotone input the order check never fires. -/
lemma calculate_ndcg_monotone_ne_nonMonotonic {l : List Instance}
    (hmono : QidMonotone l) :
    calculate_ndcg l ≠ .error .nonMonotonic := by
  by_cases hne : l = []
  · subst hne
    rw [calculate_ndcg, if_pos rfl]
    simp
  · rw [calculate_ndcg_eq_processGroups hne hmono]
    cases hp : processGroups [] (queryGroups l) 0 0 with
    | error e =>
        intro hcontra
        have he : e = .nonMonotonic := Except.error.inj hcontra
        rw [he] at hp
        exact processGroups_ne_nonMonotonic _ _ _ _ hp
    | ok p =>
        obtain ⟨inst, na, wa⟩ := p
        intro hcontra
        exact Except.noConfusion hcontra

/-- C5 (amended): every input violating the non-decreasing-query-id
precondition has a first violation, at a group boundary `(u, v)`; when
every query group completed before that violation (the groups of `A`)
is non-degenerate, `calculate_ndcg` fails with `nonMonotonic`; when
instead some group completed before the violation has all-zero
relevancy, the computation still aborts, but with `degenerateQuery`
before reaching the violation; and on non-decreasing input the order
check never fires. -/
theorem claim_C5_order_check :
    (∀ l : List Instance, ¬ QidMonotone l →
      ∃ A u v B, queryGroups l = A ++ u :: v :: B ∧
        List.Chain' (fun g h => groupQid g < groupQid h) (A ++ [u]) ∧
        ¬ groupQid u < groupQid v) ∧
    (∀ (l : List Instance) (A : List (List Instance)) (u v : List Instance)
        (B : List (List Instance)),
      (∀ x ∈ l, 0 ≤ x.relevancy) →
      queryGroups l = A ++ u :: v :: B →
      List.Chain' (fun g h => groupQid g < groupQid h) (A ++ [u]) →
      ¬ groupQid u < groupQid v →
      (∀ g ∈ A, ∃ x ∈ g, 0 < x.relevancy) →
      calculate_ndcg l = .error .nonMonotonic) ∧
    (∀ (l : List Instance) (A : List (List Instance)) (u v : List Instance)
        (B : List (List Instance)),
      (∀ x ∈ l, 0 ≤ x.relevancy) →
      queryGroups l = A ++ u :: v :: B →
      List.Chain' (fun g h => groupQid g < groupQid h) (A ++ [u]) →
      (∃ g ∈ A, ∀ x ∈ g, x.relevancy = 0) →
      calculate_ndcg l = .error .degenerateQuery) ∧
    (∀ l : List Instance, QidMonotone l →
      calculate_ndcg l ≠ .error .nonMonotonic) :=
  ⟨fun _ hnm => exists_first_violation hnm,
   fun _ _ _ _ _ hnn heq hchain hnR hApos =>
     calculate_ndcg_nonmonotone hnn heq hchain hnR hApos,
   fun _ _ _ _ _ hnn heq hchain hdeg =>
     calculate_ndcg_first_degenerate hnn heq hchain hdeg,
   fun _ hmono => calculate_ndcg_monotone_ne_nonMonotonic hmono⟩

theorem claim_C5_witness :
    calculate_ndcg [(⟨1, 1, 1, 0⟩ : Instance), ⟨0, 1, 1, 0⟩] = .error .nonMonotonic :=
  claim_C5_order_check.2.1 [⟨1, 1, 1, 0⟩, ⟨0, 1, 1, 0⟩]
    [] [⟨1, 1, 1, 0⟩] [⟨0, 1, 1, 0⟩] []
    (by intro x hx
        rcases List.mem_cons.mp hx with rfl | h2
        · norm_num
        · rcases List.mem_cons.mp h2 with rfl | h3
          · norm_num
          · cases h3)
    (by norm_num [queryGroups, addToGroups])
    (by rw [List.nil_append]; exact List.chain'_singleton _)
    (by norm_num [groupQid])
    (by simp)

/-- C5 counterexample to the claim as stated: this input's query id
drops from 1 back to 0 (an order violation), yet `calculate_ndcg` does
not fail with the order-check error: the all-zero-relevancy group
completed before the violation aborts the computation first, with the
degenerate-query error. -/
theorem claim_C5_counterexample :
    ¬ QidMonotone [(⟨0, 1, 0, 0⟩ : Instance), ⟨1, 1, 1, 0⟩, ⟨0, 1, 1, 0⟩] ∧
    calculate_ndcg [(⟨0, 1, 0, 0⟩ : Instance), ⟨1, 1, 1, 0⟩, ⟨0, 1, 1, 0⟩] ≠
      .error .nonMonotonic := by
  constructor
  · intro h
    have h' : List.Chain' (fun a b => a.query_id ≤ b.query_id)
        [(⟨0, 1, 0, 0⟩ : Instance), ⟨1, 1, 1, 0⟩, ⟨0, 1, 1, 0⟩] := h
    have h2 := (List.chain'_cons.mp h').2
    have h3 := (List.chain'_cons.mp h2).1
    norm_num at h3
  · have herr : query_ndcg_group [(⟨0, 1, 0, 0⟩ : Instance)] =
        .error .degenerateQuery := by
      refine (query_ndcg_group_degenerate_iff (by simp) ?_).mpr ?_
      · intro x hx
        rcases List.mem_cons.mp hx with rfl | h2
        · norm_num
        · cases h2
      · intro x hx
        rcases List.mem_cons.mp hx with rfl | h2
        · rfl
        · cases h2
    have hstep := ndcg_loop_boundary_err [] [(⟨0, 1, 0, 0⟩ : Instance)]
      ⟨1, 1, 1, 0⟩ [⟨0, 1, 1, 0⟩] 0 (by simp) (by norm_num) herr 0 0
    have h2 : ndcg_loop [(⟨0, 1, 0, 0⟩ : Instance), ⟨1, 1, 1, 0⟩, ⟨0, 1, 1, 0⟩]
        ([(⟨0, 1, 0, 0⟩ : Instance), ⟨1, 1, 1, 0⟩, ⟨0, 1, 1, 0⟩]).length 0 1
        (([(⟨0, 1, 0, 0⟩ : Instance), ⟨1, 1, 1, 0⟩, ⟨0, 1, 1, 0⟩].getD 0
          default).query_id) 0 0 = .error .degenerateQuery := hstep
    have hres : calculate_ndcg [(⟨0, 1, 0, 0⟩ : Instance), ⟨1, 1, 1, 0⟩, ⟨0, 1, 1, 0⟩] =
        .error .degenerateQuery := by
      rw [calculate_ndcg, if_neg (by simp), h2]
    rw [hres]
    simp

/-- C3: on a non-empty query group with a positive relevancy, the
per-query computation returns the weight total of the group (the same
total under both orderings) and the value
`weight_total * DCG(score descending) / DCG(relevancy descending)`. -/
theorem claim_C3_query_ndcg (g : List Instance) (hne : g ≠ [])
    (hnn : ∀ x ∈ g, 0 ≤ x.relevancy) (hpos : ∃ x ∈ g, 0 < x.relevancy) :
    query_ndcg_group g = .ok (sort_by_score_desc (sort_by_relevancy_desc g),
      ⟨weightSum g *
        (calculate_dcg (sort_by_score_desc (sort_by_relevancy_desc g))).value /
        (calculate_dcg (sort_by_relevancy_desc g)).value, weightSum g⟩) ∧
    (calculate_dcg (sort_by_relevancy_desc g)).weight = weightSum g ∧
    (calculate_dcg (sort_by_score_desc (sort_by_relevancy_desc g))).weight = weightSum g := by
  refine ⟨?_, ?_, ?_⟩
  · rw [query_ndcg_group_eq hne hnn hpos]
    simp [calculate_dcg_eq]
  · rw [calculate_dcg_eq]
    exact weightSum_perm (sort_by_relevancy_desc_perm g)
  · rw [calculate_dcg_eq]
    exact weightSum_perm (sort_by_score_desc_perm_orig g)

theorem claim_C3_witness :
    query_ndcg_group [⟨0, 1, 1, 2⟩, ⟨0, 2, 0, 3⟩] =
      .ok (sort_by_score_desc (sort_by_relevancy_desc [⟨0, 1, 1, 2⟩, ⟨0, 2, 0, 3⟩]),
        ⟨weightSum [⟨0, 1, 1, 2⟩, ⟨0, 2, 0, 3⟩] *
          (calculate_dcg (sort_by_score_desc
            (sort_by_relevancy_desc [⟨0, 1, 1, 2⟩, ⟨0, 2, 0, 3⟩]))).value /
          (calculate_dcg (sort_by_relevancy_desc [⟨0, 1, 1, 2⟩, ⟨0, 2, 0, 3⟩])).value,
          weightSum [⟨0, 1, 1, 2⟩, ⟨0, 2, 0, 3⟩]⟩) ∧
    (calculate_dcg (sort_by_relevancy_desc [⟨0, 1, 1, 2⟩, ⟨0, 2, 0, 3⟩])).weight =
      weightSum [⟨0, 1, 1, 2⟩, ⟨0, 2, 0, 3⟩] ∧
    (calculate_dcg (sort_by_score_desc
      (sort_by_relevancy_desc [⟨0, 1, 1, 2⟩, ⟨0, 2, 0, 3⟩]))).weight =
      weightSum [⟨0, 1, 1, 2⟩, ⟨0, 2, 0, 3⟩] :=
  claim_C3_query_ndcg [⟨0, 1, 1, 2⟩, ⟨0, 2, 0, 3⟩] (by simp)
    (by intro x hx; rcases List.mem_cons.mp hx with rfl | hx2
        · norm_num
        · rcases List.mem_cons.mp hx2 with rfl | hx3
          · norm_num
          · cases hx3)
    ⟨⟨0, 1, 1, 2⟩, List.mem_cons_self _ _, by norm_num⟩

/-- C7: a query group consisting of a single instance scores exactly 1
as its normalized NDCG: the per-query computation returns its weight
both as value and as weight. -/
theorem claim_C7_single (x : Instance) (h : 0 < x.relevancy) :
    query_ndcg_group [x] = .ok ([x], ⟨x.weight, x.weight⟩) := by
  have hnn : ∀ y ∈ [x], 0 ≤ y.relevancy := by
    intro y hy
    rcases List.mem_cons.mp hy with rfl | h2
    · exact h.le
    · cases h2
  have hd : 0 < dcgSum [x] 0 :=
    dcgSum_pos hnn (List.mem_cons_self _ _) h 0
  have hs1 : sort_by_relevancy_desc [x] = [x] := by
    simp [sort_by_relevancy_desc]
  have hs2 : sort_by_score_desc [x] = [x] := by
    simp [sort_by_score_desc]
  rw [query_ndcg_group_eq (by simp) hnn ⟨x, List.mem_cons_self _ _, h⟩, hs1, hs2]
  have hw : weightSum [x] = x.weight := by simp [weightSum]
  rw [hw, mul_div_assoc, div_self (ne_of_gt hd), mul_one]

theorem claim_C7_witness :
    query_ndcg_group [⟨0, 1, 1, 0⟩] = .ok ([⟨0, 1, 1, 0⟩], ⟨1, 1⟩) :=
  claim_C7_single ⟨0, 1, 1, 0⟩ (by norm_num)

/-- C8: on a valid non-empty query group (non-negative relevancies, at
least one positive, positive weights) the per-query computation
succeeds, its value divided by its weight lies in `[0, 1]`, and the DCG
of the score-descending ordering never exceeds the DCG of the
relevancy-descending ordering. -/
theorem claim_C8_ndcg_in_unit_interval (g : List Instance) (hne : g ≠ [])
    (hnn : ∀ x ∈ g, 0 ≤ x.relevancy) (hpos : ∃ x ∈ g, 0 < x.relevancy)
    (hw : ∀ x ∈ g, 0 < x.weight) :
    query_ndcg_group g = .ok (sort_by_score_desc (sort_by_relevancy_desc g),
      ⟨weightSum g *
        (calculate_dcg (sort_by_score_desc (sort_by_relevancy_desc g))).value /
        (calculate_dcg (sort_by_relevancy_desc g)).value, weightSum g⟩) ∧
    0 ≤ (weightSum g *
        (calculate_dcg (sort_by_score_desc (sort_by_relevancy_desc g))).value /
        (calculate_dcg (sort_by_relevancy_desc g)).value) / weightSum g ∧
    (weightSum g *
        (calculate_dcg (sort_by_score_desc (sort_by_relevancy_desc g))).value /
        (calculate_dcg (sort_by_relevancy_desc g)).value) / weightSum g ≤ 1 ∧
    (calculate_dcg (sort_by_score_desc (sort_by_relevancy_desc g))).value ≤
      (calculate_dcg (sort_by_relevancy_desc g)).value := by
  obtain ⟨x, hx, hxpos⟩ := hpos
  have hW : 0 < weightSum g := weightSum_pos hne hw
  have hI : 0 < dcgSum (sort_by_relevancy_desc g) 0 := idcg_value_pos hnn hx hxpos
  have hD : 0 ≤ dcgSum (sort_by_score_desc (sort_by_relevancy_desc g)) 0 :=
    dcgSum_nonneg (fun y hy => hnn y ((sort_by_score_desc_perm_orig g).mem_iff.mp hy)) 0
  have hDI : dcgSum (sort_by_score_desc (sort_by_relevancy_desc g)) 0 ≤
      dcgSum (sort_by_relevancy_desc g) 0 := dcg_le_idcg g
  have hratio : (weightSum g *
      (calculate_dcg (sort_by_score_desc (sort_by_relevancy_desc g))).value /
      (calculate_dcg (sort_by_relevancy_desc g)).value) / weightSum g =
      (calculate_dcg (sort_by_score_desc (sort_by_relevancy_desc g))).value /
      (calculate_dcg (sort_by_relevancy_desc g)).value := by
    rw [mul_div_assoc]
    exact mul_div_cancel_left₀ _ (ne_of_gt hW)
  refine ⟨?_, ?_, ?_, ?_⟩
  · rw [calculate_dcg_eq, calculate_dcg_eq]
    exact query_ndcg_group_eq hne hnn ⟨x, hx, hxpos⟩
  · rw [hratio, calculate_dcg_eq, calculate_dcg_eq]
    exact div_nonneg hD hI.le
  · rw [hratio, calculate_dcg_eq, calculate_dcg_eq]
    exact (div_le_one hI).mpr hDI
  · rw [calculate_dcg_eq, calculate_dcg_eq]
    exact hDI

theorem claim_C8_witness :
    query_ndcg_group [⟨0, 1, 1, 0⟩] =
      .ok (sort_by_score_desc (sort_by_relevancy_desc [⟨0, 1, 1, 0⟩]),
        ⟨weightSum [⟨0, 1, 1, 0⟩] *
          (calculate_dcg (sort_by_score_desc (sort_by_relevancy_desc [⟨0, 1, 1, 0⟩]))).value /
          (calculate_dcg (sort_by_relevancy_desc [⟨0, 1, 1, 0⟩])).value,
          weightSum [⟨0, 1, 1, 0⟩]⟩) ∧
    0 ≤ (weightSum [⟨0, 1, 1, 0⟩] *
        (calculate_dcg (sort_by_score_desc (sort_by_relevancy_desc [⟨0, 1, 1, 0⟩]))).value /
        (calculate_dcg (sort_by_relevancy_desc [⟨0, 1, 1, 0⟩])).value) /
        weightSum [⟨0, 1, 1, 0⟩] ∧
    (weightSum [⟨0, 1, 1, 0⟩] *
        (calculate_dcg (sort_by_score_desc (sort_by_relevancy_desc [⟨0, 1, 1, 0⟩]))).value /
        (calculate_dcg (sort_by_relevancy_desc [⟨0, 1, 1, 0⟩])).value) /
        weightSum [⟨0, 1, 1, 0⟩] ≤ 1 ∧
    (calculate_dcg (sort_by_score_desc (sort_by_relevancy_desc [⟨0, 1, 1, 0⟩]))).value ≤
      (calculate_dcg (sort_by_relevancy_desc [⟨0, 1, 1, 0⟩])).value :=
  claim_C8_ndcg_in_unit_interval [⟨0, 1, 1, 0⟩] (by simp)
    (by intro x hx; rcases List.mem_cons.mp hx with rfl | h2
        · norm_num
        · cases h2)
    ⟨⟨0, 1, 1, 0⟩, List.mem_cons_self _ _, by norm_num⟩
    (by intro x hx; rcases List.mem_cons.mp hx with rfl | h2
        · norm_num
        · cases h2)

end
